import Mathlib

/-!
Shallow embedding of the MP dense linear-algebra kernel
(qip_win/MP/header: MPdefs.tpp, MPband.tpp, MPgauss.tpp, Quaternion.h).

Doubles are idealized as exact field elements (ℚ for the solvers and the
generic matrix procedures, an arbitrary linear ordered field for the
quaternion conversions, instantiated at ℝ in the theorems).  Raw pointer
walks over the heap-resident row-major buffers are modelled as functions
`ℕ → ℚ` indexed by the linear offset, exactly mirroring the pointer
arithmetic of the source.
-/

namespace MP

/-- MP_abs from MPdefs.tpp: `(a>=0 ? a : -a)`. -/
def MP_abs {K : Type*} [LinearOrderedField K] (a : K) : K :=
  if 0 ≤ a then a else -a

theorem MP_abs_eq_abs {K : Type*} [LinearOrderedField K] (a : K) :
    MP_abs a = |a| := by
  unfold MP_abs
  split <;> [exact (abs_of_nonneg ‹_›).symm; exact (abs_of_neg (not_le.mp ‹_›)).symm]

/-- Generic `MP_swap` template from MPdefs.tpp (`T t=a; a=b; b=t;`),
as a function from the two input values to the two output values. -/
def MP_swap {α : Type*} (a b : α) : α × α :=
  let t := a
  let a' := b
  let b' := t
  (a', b')

/-- Generic `MP_swap` template called with both references aliasing the same
variable `x`: `t = x; x = x; x = t;` — the final value of the variable. -/
def MP_swap_aliased {α : Type*} (x : α) : α :=
  let t := x
  let x1 := x
  let x2 := t
  (fun _ => x2) x1

/-- Int overload of `MP_swap` from MPdefs.tpp (`a ^= b; b ^= a; a ^= b;`),
on the bit patterns of the two ints, as a function from input values to
output values. -/
def MP_swap_int (a b : ℕ) : ℕ × ℕ :=
  let a1 := a ^^^ b
  let b1 := b ^^^ a1
  let a2 := a1 ^^^ b1
  (a2, b1)

/-- Int overload of `MP_swap` called with both references aliasing the same
variable `x`: each `^=` reads and writes the single variable. -/
def MP_swap_int_aliased (x : ℕ) : ℕ :=
  let x1 := x ^^^ x
  let x2 := x1 ^^^ x1
  let x3 := x2 ^^^ x2
  x3

/-- A heap-resident row-major matrix: dimensions plus the linear buffer,
modelled as a total function on linear offsets. -/
@[ext]
structure MPMat where
  rows : ℕ
  cols : ℕ
  buf : ℕ → ℚ

/-- A heap-resident vector: size plus the linear buffer. -/
@[ext]
structure MPVec where
  size : ℕ
  buf : ℕ → ℚ

/-- Starting linear offset of the diagonal walk in `MP_getDiag`/`MP_setDiag`:
for `d ≥ 0` the pointer starts at `&A[d]`, otherwise at `&A[-d*m]`. -/
def diagStart (m : ℕ) (d : ℤ) : ℕ :=
  if 0 ≤ d then d.toNat else ((-d).toNat * m)

/-- Number of elements copied by the `MP_getDiag`/`MP_setDiag` loop:
the loop runs `i` from 0 below `l` and breaks as soon as `i ≥ max`,
where `max = min(m-d, n)` for `d ≥ 0` and `max = min(l+d, n)` otherwise. -/
def diagCount (l m n : ℕ) (d : ℤ) : ℕ :=
  let mx : ℤ := if 0 ≤ d then min ((m : ℤ) - d) (n : ℤ) else min ((l : ℤ) + d) (n : ℤ)
  min l mx.toNat

/-- MP_getDiag from MPdefs.tpp: copy the diagonal of `A` with offset `d`
into `u`, walking the buffer from `diagStart` with stride `m+1`, and pad
the remaining vector positions (up to `u.size`) with zeros. -/
def MP_getDiag (A : MPMat) (d : ℤ) (u : MPVec) : MPVec :=
  let l := A.rows
  let m := A.cols
  let n := u.size
  let start := diagStart m d
  let count := diagCount l m n d
  { size := n
    buf := fun k =>
      if k < count then A.buf (start + k * (m + 1))
      else if k < n then 0
      else u.buf k }

/-- MP_setDiag from MPdefs.tpp: copy `u` into the diagonal of `A` with
offset `d`, walking the same linear offsets as `MP_getDiag`; no padding. -/
def MP_setDiag (u : MPVec) (A : MPMat) (d : ℤ) : MPMat :=
  let l := A.rows
  let m := A.cols
  let n := u.size
  let start := diagStart m d
  let count := diagCount l m n d
  { rows := l
    cols := m
    buf := fun j =>
      if start ≤ j ∧ (j - start) % (m + 1) = 0 ∧ (j - start) / (m + 1) < count
      then u.buf ((j - start) / (m + 1))
      else A.buf j }

theorem MP_getDiag_size (A : MPMat) (d : ℤ) (u : MPVec) :
    (MP_getDiag A d u).size = u.size := rfl

/-- C10: the int XOR-swap overload zeroes an aliased variable, while the
generic template leaves it unchanged; the non-aliased overloads both swap. -/
theorem swap_int_aliased_zero :
    (∀ x : ℕ, MP_swap_int_aliased x = 0) ∧
    (∀ x : ℕ, MP_swap_aliased x = x) ∧
    (∀ a b : ℕ, MP_swap_int a b = (b, a)) ∧
    (∀ a b : ℚ, MP_swap a b = (b, a)) := by
  refine ⟨fun x => ?_, fun x => rfl, fun a b => ?_, fun a b => rfl⟩
  · simp [MP_swap_int_aliased]
  · have h1 : b ^^^ (a ^^^ b) = a := by
      rw [Nat.xor_comm a b, ← Nat.xor_assoc, Nat.xor_self, Nat.zero_xor]
    have h2 : (a ^^^ b) ^^^ a = b := by
      rw [Nat.xor_comm a b, Nat.xor_assoc, Nat.xor_self, Nat.xor_zero]
    simp only [MP_swap_int, h1, h2]

/-- C8: writing back the diagonal read by `MP_getDiag` via `MP_setDiag`
leaves every element of `A` (and its dimensions) unchanged, for any offset
`d` in the valid range `|d| < rows`. -/
theorem setDiag_getDiag (A : MPMat) (d : ℤ) (u : MPVec)
    (hd : -(A.rows : ℤ) < d ∧ d < (A.rows : ℤ)) :
    MP_setDiag (MP_getDiag A d u) A d = A := by
  have hbuf : (MP_setDiag (MP_getDiag A d u) A d).buf = A.buf := by
    funext j
    simp only [MP_setDiag, MP_getDiag]
    split
    · next h =>
      obtain ⟨h1, h2, h3⟩ := h
      rw [if_pos h3]
      congr 1
      have hdvd : (A.cols + 1) ∣ (j - diagStart A.cols d) := Nat.dvd_of_mod_eq_zero h2
      rw [Nat.div_mul_cancel hdvd, Nat.add_sub_cancel' h1]
    · rfl
  exact MPMat.ext rfl rfl hbuf

/-- Witness for C8 at a concrete matrix, offset and vector. -/
theorem setDiag_getDiag_witness :
    (-((⟨2, 2, fun j => (j : ℚ)⟩ : MPMat).rows : ℤ) < 1 ∧
      (1 : ℤ) < ((⟨2, 2, fun j => (j : ℚ)⟩ : MPMat).rows : ℤ)) ∧
    MP_setDiag (MP_getDiag ⟨2, 2, fun j => (j : ℚ)⟩ 1 ⟨2, fun _ => 5⟩)
      ⟨2, 2, fun j => (j : ℚ)⟩ 1 = ⟨2, 2, fun j => (j : ℚ)⟩ :=
  ⟨by norm_num, setDiag_getDiag _ 1 _ (by norm_num)⟩

/-! ## Tridiagonal solver (MPband.tpp, MP_tridiagonal) -/

/-- Sub-diagonal band `a[i]` read from the N×3 band matrix: `A[3i]`. -/
def bandSub (A : MPMat) : ℕ → ℚ := fun i => A.buf (3 * i)

/-- Diagonal band `b[i]` read from the N×3 band matrix: `A[3i+1]`. -/
def bandDiag (A : MPMat) : ℕ → ℚ := fun i => A.buf (3 * i + 1)

/-- Super-diagonal band `c[i]` read from the N×3 band matrix: `A[3i+2]`. -/
def bandSup (A : MPMat) : ℕ → ℚ := fun i => A.buf (3 * i + 2)

/-- The running pivot of the forward sweep of `MP_tridiagonal`:
`pivot = b[0]`, then `pivot = b[i] - a[i]*(c[i-1]/pivot)`. -/
def triPivot (a b c : ℕ → ℚ) : ℕ → ℚ
  | 0 => b 0
  | i + 1 => b (i + 1) - a (i + 1) * (c i / triPivot a b c i)

/-- Scaled super-diagonal `C[i] = c[i-1] / pivot[i-1]` stored for
backsubstitution. -/
def triC (a b c : ℕ → ℚ) (i : ℕ) : ℚ :=
  c (i - 1) / triPivot a b c (i - 1)

/-- Forward-substituted right-hand side:
`r[0] = r[0]/pivot[0]`, `r[i] = (r[i] - a[i]*r[i-1])/pivot[i]`. -/
def triY (a b c r : ℕ → ℚ) : ℕ → ℚ
  | 0 => r 0 / triPivot a b c 0
  | i + 1 => (r (i + 1) - a (i + 1) * triY a b c r i) / triPivot a b c (i + 1)

/-- Backsubstitution values counted from the last row:
`triZ n C y j` is the final value of `r[n-1-j]`. -/
def triZ (n : ℕ) (C y : ℕ → ℚ) : ℕ → ℚ
  | 0 => y (n - 1)
  | j + 1 => y (n - 1 - (j + 1)) - C (n - 1 - j) * triZ n C y j

/-- Index of the first exactly-zero pivot among `pivot[0..n-1]`, scanning in
the order of the forward sweep; `none` when no pivot is exactly zero. -/
def triAbort (a b c : ℕ → ℚ) : ℕ → Option ℕ
  | 0 => none
  | n + 1 =>
      match triAbort a b c n with
      | some i => some i
      | none => if triPivot a b c n = 0 then some n else none

/-- MP_tridiagonal from MPband.tpp.  `A` is the N×3 band matrix, `B` the
right-hand side, overwritten with the solution.  The forward sweep aborts
with a report as soon as the running pivot is exactly zero (the `b[0] == 0`
check and the in-loop `pivot == 0` check), leaving the not-yet-visited
entries of `B` untouched; `.error` carries that partial state. -/
def MP_tridiagonal (A : MPMat) (B : MPVec) : Except MPVec MPVec :=
  let n := A.rows
  let a := bandSub A
  let b := bandDiag A
  let c := bandSup A
  match triAbort a b c n with
  | some i =>
      .error ⟨B.size, fun k => if k < i then triY a b c B.buf k else B.buf k⟩
  | none =>
      .ok ⟨B.size, fun k =>
        if k < n then triZ n (triC a b c) (triY a b c B.buf) (n - 1 - k)
        else B.buf k⟩

/-- The N×N tridiagonal matrix encoded by the three bands. -/
def triMat (n : ℕ) (a b c : ℕ → ℚ) : Matrix (Fin n) (Fin n) ℚ :=
  Matrix.of fun i j =>
    if (i : ℕ) = (j : ℕ) then b i
    else if (j : ℕ) + 1 = (i : ℕ) then a i
    else if (j : ℕ) = (i : ℕ) + 1 then c i
    else 0

theorem triAbort_none_forall {a b c : ℕ → ℚ} : ∀ {n : ℕ},
    triAbort a b c n = none → ∀ j < n, triPivot a b c j ≠ 0 := by
  intro n
  induction n with
  | zero => intro _ j hj; omega
  | succ n ih =>
    intro h j hj
    rw [triAbort] at h
    cases habort : triAbort a b c n with
    | some i => rw [habort] at h; exact absurd h (by simp)
    | none =>
      simp only [habort] at h
      split at h
      · exact absurd h (by simp)
      · next hp =>
        rcases Nat.lt_succ_iff_lt_or_eq.mp hj with hj2 | hj2
        · exact ih habort j hj2
        · subst hj2; exact hp

theorem triAbort_some {a b c : ℕ → ℚ} : ∀ {n i : ℕ},
    triAbort a b c n = some i →
    i < n ∧ triPivot a b c i = 0 ∧ ∀ j < i, triPivot a b c j ≠ 0 := by
  intro n
  induction n with
  | zero => intro i h; simp [triAbort] at h
  | succ n ih =>
    intro i h
    rw [triAbort] at h
    cases habort : triAbort a b c n with
    | some j =>
      simp only [habort] at h
      obtain ⟨h1, h2, h3⟩ := ih habort
      injection h with hji
      subst hji
      exact ⟨Nat.lt_succ_of_lt h1, h2, h3⟩
    | none =>
      simp only [habort] at h
      split at h
      · next hp =>
        injection h with hni
        subst hni
        exact ⟨Nat.lt_succ_self _, hp, fun j hj => triAbort_none_forall habort j hj⟩
      · exact absurd h (by simp)

theorem sum_ite_coe_eq {n : ℕ} (t : ℕ) (g : Fin n → ℚ) :
    (∑ j : Fin n, if (j : ℕ) = t then g j else 0) =
    if h : t < n then g ⟨t, h⟩ else 0 := by
  split
  · next h =>
    rw [Finset.sum_eq_single (⟨t, h⟩ : Fin n)]
    · simp
    · intro j _ hne
      exact if_neg (fun hc => hne (Fin.ext hc))
    · intro hmem; exact absurd (Finset.mem_univ _) hmem
  · next h =>
    apply Finset.sum_eq_zero
    intro j _
    exact if_neg (fun hc => h (by rw [← hc]; exact j.isLt))

theorem triMat_mulVec_solution (n : ℕ) (a b c r : ℕ → ℚ)
    (hnz : ∀ i < n, triPivot a b c i ≠ 0) (i : Fin n) :
    (triMat n a b c).mulVec
      (fun k : Fin n => triZ n (triC a b c) (triY a b c r) (n - 1 - (k : ℕ))) i
      = r (i : ℕ) := by
  obtain ⟨iv, hivlt⟩ := i
  have hn : 0 < n := by omega
  set p : ℕ → ℚ := triPivot a b c with hp
  set C : ℕ → ℚ := triC a b c with hCdef
  set y : ℕ → ℚ := triY a b c r with hydef
  set x : ℕ → ℚ := fun k => triZ n C y (n - 1 - k) with hxdef
  have hy0 : y 0 * p 0 = r 0 := div_mul_cancel₀ _ (hnz 0 hn)
  have hyS : ∀ s, s + 1 < n → y (s + 1) * p (s + 1) = r (s + 1) - a (s + 1) * y s :=
    fun s hs => div_mul_cancel₀ _ (hnz _ hs)
  have hbP : ∀ s : ℕ, b (s + 1) = p (s + 1) + a (s + 1) * C (s + 1) := by
    intro s
    show b (s+1) = triPivot a b c (s+1) + a (s+1) * triC a b c (s+1)
    rw [triPivot, triC]
    simp only [Nat.add_sub_cancel]
    ring
  have hCp : ∀ s, s < n → C (s + 1) * p s = c s := by
    intro s hs
    show triC a b c (s+1) * triPivot a b c s = c s
    rw [triC]
    simp only [Nat.add_sub_cancel]
    exact div_mul_cancel₀ _ (hnz s hs)
  have hxlast : x (n - 1) = y (n - 1) := by
    show triZ n C y (n - 1 - (n - 1)) = y (n - 1)
    rw [Nat.sub_self]
    rfl
  have hxrec : ∀ k, k + 1 < n → x k = y k - C (k + 1) * x (k + 1) := by
    intro k hk
    show triZ n C y (n - 1 - k) = y k - C (k + 1) * triZ n C y (n - 1 - (k + 1))
    have e0 : n - 1 - k = (n - 2 - k) + 1 := by omega
    rw [e0]
    have e1 : triZ n C y ((n - 2 - k) + 1) =
        y (n - 1 - ((n - 2 - k) + 1)) - C (n - 1 - (n - 2 - k)) * triZ n C y (n - 2 - k) := rfl
    rw [e1]
    have e2 : n - 1 - ((n - 2 - k) + 1) = k := by omega
    have e3 : n - 1 - (n - 2 - k) = k + 1 := by omega
    have e4 : n - 2 - k = n - 1 - (k + 1) := by omega
    rw [e2, e3, e4]
  have hexp : ∀ j : Fin n, triMat n a b c ⟨iv, hivlt⟩ j * x (j : ℕ) =
      (if (j : ℕ) = iv then b iv * x (j : ℕ) else 0) +
      ((if (j : ℕ) + 1 = iv then a iv * x (j : ℕ) else 0) +
       (if (j : ℕ) = iv + 1 then c iv * x (j : ℕ) else 0)) := by
    intro j
    simp only [triMat, Matrix.of_apply, Fin.val_mk]
    split_ifs with h1 h2 h3 <;> (first | ring1 | (exfalso; omega))
  have hmv : (triMat n a b c).mulVec
      (fun k : Fin n => triZ n C y (n - 1 - (k : ℕ))) ⟨iv, hivlt⟩ =
      ∑ j : Fin n, triMat n a b c ⟨iv, hivlt⟩ j * x (j : ℕ) := by
    simp [Matrix.mulVec, Matrix.dotProduct]
  rw [hmv, Finset.sum_congr rfl (fun j _ => hexp j), Finset.sum_add_distrib,
      Finset.sum_add_distrib, sum_ite_coe_eq, sum_ite_coe_eq]
  have hS2 : (∑ j : Fin n, if (j : ℕ) + 1 = iv then a iv * x (j : ℕ) else 0) =
      if 1 ≤ iv then a iv * x (iv - 1) else 0 := by
    by_cases hiv : 1 ≤ iv
    · rw [if_pos hiv]
      have hcond : ∀ j : Fin n, ((j : ℕ) + 1 = iv) ↔ ((j : ℕ) = iv - 1) :=
        fun j => by omega
      rw [Finset.sum_congr rfl (fun j _ => by rw [if_congr (hcond j) rfl rfl]),
          sum_ite_coe_eq, dif_pos (show iv - 1 < n by omega)]
    · rw [if_neg hiv]
      exact Finset.sum_eq_zero fun j _ => if_neg (by omega)
  rw [hS2, dif_pos hivlt]
  by_cases hlast : iv + 1 < n
  · rw [dif_pos hlast]
    rcases Nat.eq_zero_or_pos iv with h0 | hpos
    · subst h0
      rw [if_neg (by omega)]
      have h1 := hxrec 0 (by omega)
      have h4 := hCp 0 hn
      have hb0 : b 0 = p 0 := rfl
      linear_combination b 0 * h1 + (y 0 - C 1 * x 1) * hb0 - x 1 * h4 + hy0
    · obtain ⟨s, rfl⟩ : ∃ s, iv = s + 1 := ⟨iv - 1, by omega⟩
      rw [if_pos (by omega)]
      simp only [Nat.add_sub_cancel]
      have h1 := hxrec s (by omega)
      have h2 := hxrec (s + 1) (by omega)
      have h3 := hbP s
      have h4 := hCp (s + 1) (by omega)
      have h5 := hyS s (by omega)
      linear_combination a (s+1) * h1 + x (s+1) * h3 + p (s+1) * h2 - x (s+1+1) * h4 + h5
  · rw [dif_neg hlast]
    have hieq : iv = n - 1 := by omega
    rcases Nat.eq_zero_or_pos iv with h0 | hpos
    · subst h0
      rw [if_neg (by omega)]
      have h2l : x 0 = y 0 := by rw [show (0 : ℕ) = n - 1 by omega]; exact hxlast
      have hb0 : b 0 = p 0 := rfl
      linear_combination x 0 * hb0 + p 0 * h2l + hy0
    · obtain ⟨s, rfl⟩ : ∃ s, iv = s + 1 := ⟨iv - 1, by omega⟩
      rw [if_pos (by omega)]
      simp only [Nat.add_sub_cancel]
      have h1 := hxrec s (by omega)
      have h3 := hbP s
      have h5 := hyS s (by omega)
      have h2l : x (s + 1) = y (s + 1) := by
        rw [show s + 1 = n - 1 by omega]; exact hxlast
      linear_combination a (s+1) * h1 + x (s+1) * h3 + p (s+1) * h2l + h5

/-- C3: `MP_tridiagonal` reports a singular-matrix failure exactly when some
pivot of the forward sweep is exactly zero (an exact `== 0` test); the abort
leaves the not-yet-visited suffix of `B` unmodified; and when no pivot is
exactly zero it completes, overwriting `B` with the solution of the
tridiagonal system encoded by the three bands. -/
theorem tridiagonal_error_iff_zero_pivot (A : MPMat) (B : MPVec)
    (hn : 1 ≤ A.rows) :
    ((∃ e, MP_tridiagonal A B = .error e) ↔
       ∃ i < A.rows, triPivot (bandSub A) (bandDiag A) (bandSup A) i = 0) ∧
    (∀ e i, MP_tridiagonal A B = .error e →
       triPivot (bandSub A) (bandDiag A) (bandSup A) i = 0 →
       (∀ j < i, triPivot (bandSub A) (bandDiag A) (bandSup A) j ≠ 0) →
       e.size = B.size ∧ ∀ k, i ≤ k → e.buf k = B.buf k) ∧
    (∀ B2, MP_tridiagonal A B = .ok B2 → B2.size = B.size ∧
       (triMat A.rows (bandSub A) (bandDiag A) (bandSup A)).mulVec
         (fun i : Fin A.rows => B2.buf (i : ℕ)) =
         fun i : Fin A.rows => B.buf (i : ℕ)) := by
  clear hn
  cases habort : triAbort (bandSub A) (bandDiag A) (bandSup A) A.rows with
  | some i0 =>
    obtain ⟨hi0lt, hi0z, hi0min⟩ := triAbort_some habort
    have heq : MP_tridiagonal A B = .error
        ⟨B.size, fun k => if k < i0 then triY (bandSub A) (bandDiag A) (bandSup A) B.buf k
                          else B.buf k⟩ := by
      simp only [MP_tridiagonal, habort]
    refine ⟨⟨fun _ => ⟨i0, hi0lt, hi0z⟩, fun _ => ⟨_, heq⟩⟩, ?_, ?_⟩
    · intro e i herr hiz himin
      have hei : e = ⟨B.size, fun k => if k < i0 then
          triY (bandSub A) (bandDiag A) (bandSup A) B.buf k else B.buf k⟩ := by
        rw [heq] at herr
        exact (Except.error.inj herr).symm
      have hii : i = i0 := by
        by_contra hne
        rcases Nat.lt_or_ge i i0 with hlt | hge
        · exact hi0min i hlt hiz
        · exact himin i0 (by omega) hi0z
      subst hei
      exact ⟨rfl, fun k hk => if_neg (by omega)⟩
    · intro B2 hok
      rw [heq] at hok
      cases hok
  | none =>
    have hnz := triAbort_none_forall habort
    have heq : MP_tridiagonal A B = .ok
        ⟨B.size, fun k => if k < A.rows then
            triZ A.rows (triC (bandSub A) (bandDiag A) (bandSup A))
              (triY (bandSub A) (bandDiag A) (bandSup A) B.buf) (A.rows - 1 - k)
          else B.buf k⟩ := by
      simp only [MP_tridiagonal, habort]
    refine ⟨⟨fun ⟨e, he⟩ => ?_, fun ⟨i, hi, hz⟩ => absurd hz (hnz i hi)⟩, ?_, ?_⟩
    · rw [heq] at he; cases he
    · intro e i herr _ _
      rw [heq] at herr
      cases herr
    · intro B2 hok
      rw [heq] at hok
      have hB2 : B2 = ⟨B.size, fun k => if k < A.rows then
          triZ A.rows (triC (bandSub A) (bandDiag A) (bandSup A))
            (triY (bandSub A) (bandDiag A) (bandSup A) B.buf) (A.rows - 1 - k)
          else B.buf k⟩ := (Except.ok.inj hok).symm
      subst hB2
      refine ⟨rfl, funext fun i => ?_⟩
      have hlt : (i : ℕ) < A.rows := i.isLt
      have hbody : (fun k : Fin A.rows =>
          (if (k : ℕ) < A.rows then
            triZ A.rows (triC (bandSub A) (bandDiag A) (bandSup A))
              (triY (bandSub A) (bandDiag A) (bandSup A) B.buf) (A.rows - 1 - (k : ℕ))
          else B.buf (k : ℕ))) = (fun k : Fin A.rows =>
            triZ A.rows (triC (bandSub A) (bandDiag A) (bandSup A))
              (triY (bandSub A) (bandDiag A) (bandSup A) B.buf) (A.rows - 1 - (k : ℕ))) := by
        funext k
        exact if_pos k.isLt
      show ((triMat A.rows _ _ _).mulVec _) i = _
      rw [show (fun k : Fin A.rows =>
          (⟨B.size, fun k2 => if k2 < A.rows then
            triZ A.rows (triC (bandSub A) (bandDiag A) (bandSup A))
              (triY (bandSub A) (bandDiag A) (bandSup A) B.buf) (A.rows - 1 - k2)
          else B.buf k2⟩ : MPVec).buf (k : ℕ)) = (fun k : Fin A.rows =>
            triZ A.rows (triC (bandSub A) (bandDiag A) (bandSup A))
              (triY (bandSub A) (bandDiag A) (bandSup A) B.buf) (A.rows - 1 - (k : ℕ)))
        from funext fun k => if_pos k.isLt]
      exact triMat_mulVec_solution A.rows _ _ _ B.buf hnz i

/-- Concrete N=3 band matrix: sub=[0,1,1], diag=[2,2,2], super=[1,1,0],
stored row-major as rows (sub, diag, super). -/
def triA4 : MPMat := ⟨3, 3, fun j => ([0, 2, 1, 1, 2, 1, 1, 2, 0] : List ℚ).getD j 0⟩

/-- Concrete right-hand side [1, 2, 3]. -/
def triB4 : MPVec := ⟨3, fun k => ([1, 2, 3] : List ℚ).getD k 0⟩

/-- Entry `k` of the overwritten right-hand side, `none` on the failure path. -/
def exceptBuf (r : Except MPVec MPVec) (k : ℕ) : Option ℚ :=
  match r with
  | .ok v => some (v.buf k)
  | .error _ => none

/-- C4: on bands sub=[0,1,1], diag=[2,2,2], super=[1,1,0] and RHS [1,2,3],
`MP_tridiagonal` succeeds and overwrites the RHS with [1/2, 0, 3/2]. -/
theorem tridiagonal_example :
    exceptBuf (MP_tridiagonal triA4 triB4) 0 = some (1 / 2) ∧
    exceptBuf (MP_tridiagonal triA4 triB4) 1 = some 0 ∧
    exceptBuf (MP_tridiagonal triA4 triB4) 2 = some (3 / 2) := by
  refine ⟨?_, ?_, ?_⟩ <;>
    norm_num [exceptBuf, MP_tridiagonal, triAbort, triPivot, triY, triZ, triC,
      bandSub, bandDiag, bandSup, triA4, triB4, List.getD]

/-- Witness for C3 at the concrete tridiagonal example input. -/
theorem tridiagonal_error_iff_zero_pivot_witness :
    1 ≤ triA4.rows ∧
    (((∃ e, MP_tridiagonal triA4 triB4 = .error e) ↔
       ∃ i < triA4.rows,
         triPivot (bandSub triA4) (bandDiag triA4) (bandSup triA4) i = 0) ∧
    (∀ e i, MP_tridiagonal triA4 triB4 = .error e →
       triPivot (bandSub triA4) (bandDiag triA4) (bandSup triA4) i = 0 →
       (∀ j < i, triPivot (bandSub triA4) (bandDiag triA4) (bandSup triA4) j ≠ 0) →
       e.size = triB4.size ∧ ∀ k, i ≤ k → e.buf k = triB4.buf k) ∧
    (∀ B2, MP_tridiagonal triA4 triB4 = .ok B2 → B2.size = triB4.size ∧
       (triMat triA4.rows (bandSub triA4) (bandDiag triA4) (bandSup triA4)).mulVec
         (fun i : Fin triA4.rows => B2.buf (i : ℕ)) =
         fun i : Fin triA4.rows => triB4.buf (i : ℕ))) :=
  ⟨by norm_num [triA4], tridiagonal_error_iff_zero_pivot triA4 triB4 (by norm_num [triA4])⟩

/-! ## Quaternion conversions (Quaternion.h) -/

/-- A quaternion `q = ix + jy + kz + w`, mirroring the `m_quat[4]` array
with `q[0]=x, q[1]=y, q[2]=z, q[3]=w`. -/
@[ext]
structure Quat (K : Type*) where
  x : K
  y : K
  z : K
  w : K

/-- Modelled from the spec: `Quaternion::norm2` (implementation not under
src/) computes the sum of squares of the four components. -/
def quatNorm2 {K : Type*} [LinearOrderedField K] (q : Quat K) : K :=
  q.x * q.x + q.y * q.y + q.z * q.z + q.w * q.w

/-- Modelled from the spec: `Quaternion::normalize` (implementation not under
src/) scales in place to unit norm and fails with a DegenerateVectorError,
leaving the quaternion unmodified, when the norm is below a small epsilon
(`MP_EPSILON = 1.0e-6` from MPdefs.h).  The square root of the exact field
is passed in as a function. -/
def quatNormalize {K : Type*} [LinearOrderedField K] (sqrt : K → K)
    (q : Quat K) : Quat K :=
  let n := sqrt (quatNorm2 q)
  if n < 1 / 1000000 then q
  else ⟨q.x / n, q.y / n, q.z / n, q.w / n⟩

/-- `rr = 1 + d0 + d1 + d2` computed from the diagonal of `R = A.transpose()`
in `MP_matrixToQuaternion`. -/
def quatRR {K : Type*} [LinearOrderedField K] (A : Matrix (Fin 3) (Fin 3) K) : K :=
  let R := A.transpose
  1 + R 0 0 + R 1 1 + R 2 2

/-- `xx = 1 + d0 - d1 - d2` from the diagonal. -/
def quatXX {K : Type*} [LinearOrderedField K] (A : Matrix (Fin 3) (Fin 3) K) : K :=
  let R := A.transpose
  1 + R 0 0 - R 1 1 - R 2 2

/-- `yy = 1 - d0 + d1 - d2` from the diagonal. -/
def quatYY {K : Type*} [LinearOrderedField K] (A : Matrix (Fin 3) (Fin 3) K) : K :=
  let R := A.transpose
  1 - R 0 0 + R 1 1 - R 2 2

/-- `zz = 1 - d0 - d1 + d2` from the diagonal. -/
def quatZZ {K : Type*} [LinearOrderedField K] (A : Matrix (Fin 3) (Fin 3) K) : K :=
  let R := A.transpose
  1 - R 0 0 - R 1 1 + R 2 2

/-- The running maximum `max = rr; if (xx > max) ...; if (yy > max) ...;
if (zz > max) ...` of `MP_matrixToQuaternion`. -/
def maxAccum {K : Type*} [LinearOrderedField K] (rr xx yy zz : K) : K :=
  let m1 := rr
  let m2 := if xx > m1 then xx else m1
  let m3 := if yy > m2 then yy else m2
  if zz > m3 then zz else m3

/-- The `rr == max` branch of `MP_matrixToQuaternion`. -/
def mtqRR {K : Type*} [LinearOrderedField K] (sqrt : K → K)
    (A : Matrix (Fin 3) (Fin 3) K) : Quat K :=
  let R := A.transpose
  let r4 := sqrt (quatRR A * 4)
  ⟨(R 1 2 - R 2 1) / r4, (R 2 0 - R 0 2) / r4, (R 0 1 - R 1 0) / r4, r4 / 4⟩

/-- The `xx == max` branch of `MP_matrixToQuaternion`. -/
def mtqXX {K : Type*} [LinearOrderedField K] (sqrt : K → K)
    (A : Matrix (Fin 3) (Fin 3) K) : Quat K :=
  let R := A.transpose
  let x4 := sqrt (quatXX A * 4)
  ⟨x4 / 4, (R 0 1 + R 1 0) / x4, (R 0 2 + R 2 0) / x4, (R 1 2 - R 2 1) / x4⟩

/-- The `yy == max` branch of `MP_matrixToQuaternion`. -/
def mtqYY {K : Type*} [LinearOrderedField K] (sqrt : K → K)
    (A : Matrix (Fin 3) (Fin 3) K) : Quat K :=
  let R := A.transpose
  let y4 := sqrt (quatYY A * 4)
  ⟨(R 0 1 + R 1 0) / y4, y4 / 4, (R 1 2 + R 2 1) / y4, (R 2 0 - R 0 2) / y4⟩

/-- The final `else` (`zz` largest) branch of `MP_matrixToQuaternion`. -/
def mtqZZ {K : Type*} [LinearOrderedField K] (sqrt : K → K)
    (A : Matrix (Fin 3) (Fin 3) K) : Quat K :=
  let R := A.transpose
  let z4 := sqrt (quatZZ A * 4)
  ⟨(R 0 2 + R 2 0) / z4, (R 1 2 + R 2 1) / z4, z4 / 4, (R 0 1 - R 1 0) / z4⟩

/-- MP_matrixToQuaternion from Quaternion.h: compute the four diagonal
terms, take the running maximum, and dispatch on the first of
`rr, xx, yy, zz` that equals the maximum. -/
def MP_matrixToQuaternion {K : Type*} [LinearOrderedField K] (sqrt : K → K)
    (A : Matrix (Fin 3) (Fin 3) K) : Quat K :=
  let rr := quatRR A
  let xx := quatXX A
  let yy := quatYY A
  let zz := quatZZ A
  let mx := maxAccum rr xx yy zz
  if rr = mx then mtqRR sqrt A
  else if xx = mx then mtqXX sqrt A
  else if yy = mx then mtqYY sqrt A
  else mtqZZ sqrt A

/-- Modelled from the spec: select the branch with the largest of the four
values, ties resolved by the evaluation order rr→xx→yy→zz, first maximum
wins. -/
def specFirstMax {K : Type*} [LinearOrderedField K] (rr xx yy zz : K) : Fin 4 :=
  if rr ≥ xx ∧ rr ≥ yy ∧ rr ≥ zz then 0
  else if xx ≥ yy ∧ xx ≥ zz then 1
  else if yy ≥ zz then 2
  else 3

/-- MP_quaternionToMatrix from Quaternion.h, 3×3 output: normalize a copy of
the quaternion, then fill the rotation matrix by the direct closed form. -/
def MP_quaternionToMatrix3 {K : Type*} [LinearOrderedField K] (sqrt : K → K)
    (r : Quat K) : Matrix (Fin 3) (Fin 3) K :=
  let q := quatNormalize sqrt r
  let x := q.x
  let y := q.y
  let z := q.z
  let w := q.w
  !![w*w + x*x - y*y - z*z, 2*x*y - 2*w*z,           2*x*z + 2*w*y;
     2*x*y + 2*w*z,         w*w - x*x + y*y - z*z,   2*y*z - 2*w*x;
     2*x*z - 2*w*y,         2*y*z + 2*w*x,           w*w - x*x - y*y + z*z]

/-- MP_quaternionToMatrix from Quaternion.h, 4×4 output: the same 3×3 block
plus the `rows() > 3` homogeneous extension, whose corner entry is written
as `w*w + x*x + y*y + z*z` of the normalized components. -/
def MP_quaternionToMatrix4 {K : Type*} [LinearOrderedField K] (sqrt : K → K)
    (r : Quat K) : Matrix (Fin 4) (Fin 4) K :=
  let q := quatNormalize sqrt r
  let x := q.x
  let y := q.y
  let z := q.z
  let w := q.w
  !![w*w + x*x - y*y - z*z, 2*x*y - 2*w*z,           2*x*z + 2*w*y,         0;
     2*x*y + 2*w*z,         w*w - x*x + y*y - z*z,   2*y*z - 2*w*x,         0;
     2*x*z - 2*w*y,         2*y*z + 2*w*x,           w*w - x*x - y*y + z*z, 0;
     0,                     0,                       0,  w*w + x*x + y*y + z*z]

/-- C5: `MP_matrixToQuaternion` computes the four scalar bases from the
matrix diagonal and takes the derivation branch of the largest of
`rr, xx, yy, zz`, ties resolved by evaluation order rr→xx→yy→zz with the
first maximum winning (refinement against the spec-side first-maximum
selector). -/
theorem matrixToQuaternion_branch {K : Type*} [LinearOrderedField K]
    (sqrt : K → K) (A : Matrix (Fin 3) (Fin 3) K) :
    MP_matrixToQuaternion sqrt A =
      ![mtqRR sqrt A, mtqXX sqrt A, mtqYY sqrt A, mtqZZ sqrt A]
        (specFirstMax (quatRR A) (quatXX A) (quatYY A) (quatZZ A)) := by
  set rr := quatRR A
  set xx := quatXX A
  set yy := quatYY A
  set zz := quatZZ A
  show (if rr = maxAccum rr xx yy zz then mtqRR sqrt A
        else if xx = maxAccum rr xx yy zz then mtqXX sqrt A
        else if yy = maxAccum rr xx yy zz then mtqYY sqrt A
        else mtqZZ sqrt A) = _
  by_cases h1 : rr ≥ xx ∧ rr ≥ yy ∧ rr ≥ zz
  · obtain ⟨hx, hy, hz⟩ := h1
    have hmx : maxAccum rr xx yy zz = rr := by
      unfold maxAccum
      dsimp only
      split_ifs <;> linarith
    rw [hmx, if_pos rfl, specFirstMax, if_pos ⟨hx, hy, hz⟩]
    rfl
  · by_cases h2 : xx ≥ yy ∧ xx ≥ zz
    · have hxr : rr < xx := by
        by_contra hc
        push_neg at hc
        exact h1 ⟨hc, le_trans h2.1 hc, le_trans h2.2 hc⟩
      have hmx : maxAccum rr xx yy zz = xx := by
        unfold maxAccum
        dsimp only
        split_ifs <;> linarith
      rw [hmx, if_neg (ne_of_lt hxr), if_pos rfl, specFirstMax, if_neg h1,
        if_pos h2]
      rfl
    · by_cases h3 : yy ≥ zz
      · have hxy : xx < yy := by
          by_contra hc
          push_neg at hc
          exact h2 ⟨hc, le_trans h3 hc⟩
        have hry : rr < yy := by
          by_contra hc
          push_neg at hc
          exact h1 ⟨le_trans (le_of_lt hxy) hc, hc, le_trans h3 hc⟩
        have hmx : maxAccum rr xx yy zz = yy := by
          unfold maxAccum
          dsimp only
          split_ifs <;> linarith
        rw [hmx, if_neg (ne_of_lt hry), if_neg (ne_of_lt hxy), if_pos rfl,
          specFirstMax, if_neg h1, if_neg h2, if_pos h3]
        rfl
      · push_neg at h3
        have hxz : xx < zz := by
          by_contra hc
          push_neg at hc
          exact h2 ⟨le_trans (le_of_lt h3) hc, hc⟩
        have hrz : rr < zz := by
          by_contra hc
          push_neg at hc
          exact h1 ⟨le_trans (le_of_lt hxz) hc, le_trans (le_of_lt h3) hc, hc⟩
        have hmx : maxAccum rr xx yy zz = zz := by
          unfold maxAccum
          dsimp only
          split_ifs <;> linarith
        rw [hmx, if_neg (ne_of_lt hrz), if_neg (ne_of_lt hxz),
          if_neg (ne_of_lt h3), specFirstMax, if_neg h1, if_neg h2,
          if_neg (not_le.mpr h3)]
        rfl

/-- C6: for a quaternion whose norm is at or above the degeneracy threshold,
`MP_quaternionToMatrix` on a 4×4 output first normalizes a copy of the
quaternion, builds the 3×3 rotation block from the normalized components by
the direct closed form (the same block as the 3×3 output), and fills the
last row and column with the homogeneous identity extension (0,0,0,1). -/
theorem quaternionToMatrix4_homogeneous (r : Quat ℝ)
    (h : (1 : ℝ) / 1000000 ≤ Real.sqrt (quatNorm2 r)) :
    (∀ i j : Fin 3,
        MP_quaternionToMatrix4 Real.sqrt r i.castSucc j.castSucc =
          MP_quaternionToMatrix3 Real.sqrt r i j) ∧
    (MP_quaternionToMatrix3 Real.sqrt r =
        (let q := quatNormalize Real.sqrt r
         !![q.w*q.w + q.x*q.x - q.y*q.y - q.z*q.z, 2*q.x*q.y - 2*q.w*q.z,
              2*q.x*q.z + 2*q.w*q.y;
            2*q.x*q.y + 2*q.w*q.z, q.w*q.w - q.x*q.x + q.y*q.y - q.z*q.z,
              2*q.y*q.z - 2*q.w*q.x;
            2*q.x*q.z - 2*q.w*q.y, 2*q.y*q.z + 2*q.w*q.x,
              q.w*q.w - q.x*q.x - q.y*q.y + q.z*q.z])) ∧
    MP_quaternionToMatrix4 Real.sqrt r 3 3 = 1 ∧
    (∀ i : Fin 3, MP_quaternionToMatrix4 Real.sqrt r i.castSucc 3 = 0 ∧
        MP_quaternionToMatrix4 Real.sqrt r 3 i.castSucc = 0) := by
  have hn2 : 0 ≤ quatNorm2 r := by
    unfold quatNorm2
    nlinarith [mul_self_nonneg r.x, mul_self_nonneg r.y, mul_self_nonneg r.z,
      mul_self_nonneg r.w]
  have hne : quatNorm2 r ≠ 0 := by
    intro h0
    rw [h0, Real.sqrt_zero] at h
    norm_num at h
  have hspos : 0 < Real.sqrt (quatNorm2 r) :=
    lt_of_lt_of_le (by norm_num) h
  have hsq : Real.sqrt (quatNorm2 r) * Real.sqrt (quatNorm2 r) = quatNorm2 r :=
    Real.mul_self_sqrt hn2
  have hnormalize : quatNormalize Real.sqrt r =
      ⟨r.x / Real.sqrt (quatNorm2 r), r.y / Real.sqrt (quatNorm2 r),
       r.z / Real.sqrt (quatNorm2 r), r.w / Real.sqrt (quatNorm2 r)⟩ := by
    unfold quatNormalize
    dsimp only
    rw [if_neg (not_lt.mpr h)]
  refine ⟨?_, ?_, ?_, ?_⟩
  · intro i j
    fin_cases i <;> fin_cases j <;> rfl
  · rfl
  · show (let q := quatNormalize Real.sqrt r
          let x := q.x
          let y := q.y
          let z := q.z
          let w := q.w
          (!![w*w + x*x - y*y - z*z, 2*x*y - 2*w*z, 2*x*z + 2*w*y, 0;
              2*x*y + 2*w*z, w*w - x*x + y*y - z*z, 2*y*z - 2*w*x, 0;
              2*x*z - 2*w*y, 2*y*z + 2*w*x, w*w - x*x - y*y + z*z, 0;
              0, 0, 0, w*w + x*x + y*y + z*z] : Matrix (Fin 4) (Fin 4) ℝ)) 3 3 = 1
    dsimp only
    rw [hnormalize]
    show r.w / Real.sqrt (quatNorm2 r) * (r.w / Real.sqrt (quatNorm2 r)) +
        r.x / Real.sqrt (quatNorm2 r) * (r.x / Real.sqrt (quatNorm2 r)) +
        r.y / Real.sqrt (quatNorm2 r) * (r.y / Real.sqrt (quatNorm2 r)) +
        r.z / Real.sqrt (quatNorm2 r) * (r.z / Real.sqrt (quatNorm2 r)) = 1
    have hq2 : quatNorm2 r =
        r.x * r.x + r.y * r.y + r.z * r.z + r.w * r.w := rfl
    rw [div_mul_div_comm, div_mul_div_comm, div_mul_div_comm, div_mul_div_comm,
        div_add_div_same, div_add_div_same, div_add_div_same, hsq,
        div_eq_one_iff_eq hne]
    linear_combination -hq2
  · intro i
    fin_cases i <;> exact ⟨rfl, rfl⟩

/-- Witness for C6 at the unit quaternion (0,0,0,1). -/
theorem quaternionToMatrix4_homogeneous_witness :
    ((1 : ℝ) / 1000000 ≤ Real.sqrt (quatNorm2 ⟨0, 0, 0, 1⟩)) ∧
    (MP_quaternionToMatrix4 Real.sqrt ⟨0, 0, 0, 1⟩ 3 3 = 1) := by
  have hq : quatNorm2 (⟨0, 0, 0, 1⟩ : Quat ℝ) = 1 := by
    unfold quatNorm2
    norm_num
  have hh : (1 : ℝ) / 1000000 ≤ Real.sqrt (quatNorm2 ⟨0, 0, 0, 1⟩) := by
    rw [hq, Real.sqrt_one]
    norm_num
  exact ⟨hh, (quaternionToMatrix4_homogeneous ⟨0, 0, 0, 1⟩ hh).2.2.1⟩

/-! ## Gauss-Jordan and Gaussian elimination (MPgauss.tpp) -/

/-- Row swap: the element-wise `MP_swap` loop over two rows (an identity
when the two indices coincide). -/
def swapRowsM {n m : ℕ} (M : Matrix (Fin n) (Fin m) ℚ) (i j : Fin n) :
    Matrix (Fin n) (Fin m) ℚ :=
  Matrix.of fun r c => if r = i then M j c else if r = j then M i c else M r c

/-- Column swap: the element-wise `MP_swap` loop over two columns. -/
def swapColsM {n m : ℕ} (M : Matrix (Fin n) (Fin m) ℚ) (i j : Fin m) :
    Matrix (Fin n) (Fin m) ℚ :=
  Matrix.of fun r c => if c = i then M r j else if c = j then M r i else M r c

/-- Scale one row by a factor. -/
def scaleRowM {n m : ℕ} (M : Matrix (Fin n) (Fin m) ℚ) (i : Fin n) (t : ℚ) :
    Matrix (Fin n) (Fin m) ℚ :=
  Matrix.of fun r c => if r = i then M r c * t else M r c

/-- Subtract `coef r` times row `ic` from every other row `r`. -/
def elimRowsM {n m : ℕ} (M : Matrix (Fin n) (Fin m) ℚ) (ic : Fin n)
    (coef : Fin n → ℚ) : Matrix (Fin n) (Fin m) ℚ :=
  Matrix.of fun r c => if r = ic then M r c else M r c - M ic c * coef r

/-- Inner column scan of the full-pivot search: visit one unflagged column
of the current row, updating the accumulator when `MP_abs` of the entry
strictly exceeds the running `big` (which starts at 0, encoded as `none`). -/
def fpInner {n : ℕ} (A : Matrix (Fin n) (Fin n) ℚ) (flag : Fin n → Bool)
    (row : Fin n) (acc : Option (ℚ × Fin n × Fin n)) (col : Fin n) :
    Option (ℚ × Fin n × Fin n) :=
  if flag col then acc
  else
    let v := MP_abs (A row col)
    match acc with
    | none => if v > 0 then some (v, row, col) else none
    | some (big, rc) => if v > big then some (v, row, col) else some (big, rc)

/-- Outer row scan of the full-pivot search. -/
def fpOuter {n : ℕ} (A : Matrix (Fin n) (Fin n) ℚ) (flag : Fin n → Bool)
    (acc : Option (ℚ × Fin n × Fin n)) (row : Fin n) :
    Option (ℚ × Fin n × Fin n) :=
  if flag row then acc
  else (List.finRange n).foldl (fpInner A flag row) acc

/-- The full-pivot search of `MP_GaussJordan`: scan all unflagged rows and
unflagged columns in row-major order, keeping the first strictly larger
`MP_abs` value, starting from `big = 0`; `none` when no positive value is
found (the `big == 0` singular branch). -/
def findPivot {n : ℕ} (A : Matrix (Fin n) (Fin n) ℚ) (flag : Fin n → Bool) :
    Option (ℚ × Fin n × Fin n) :=
  (List.finRange n).foldl (fpOuter A flag) none

/-- Loop state of `MP_GaussJordan`: the coefficient matrix (overwritten in
place with the inverse), the solution block `X`, the untouched right-hand
side `B`, the pivot flags, and the recorded `(row_indx, col_indx)` pairs. -/
structure GJState (n m : ℕ) where
  A : Matrix (Fin n) (Fin n) ℚ
  X : Matrix (Fin n) (Fin m) ℚ
  B : Matrix (Fin n) (Fin m) ℚ
  flag : Fin n → Bool
  piv : List (Fin n × Fin n)

/-- One iteration of the `MP_GaussJordan` main loop: find the pivot, flag
its column, swap rows in `A` and `X`, divide the pivot row (with the
`pivot = 1` in-place trick on `A`), and reduce all other rows (with the
`d1[icol] = 0` in-place trick on `A`); `none` on the `big == 0` singular
report. -/
def gjStep {n m : ℕ} (s : GJState n m) : Option (GJState n m) :=
  match findPivot s.A s.flag with
  | none => none
  | some (_, ir, ic) =>
      let flag2 : Fin n → Bool := fun k => if k = ic then true else s.flag k
      let A1 := swapRowsM s.A ir ic
      let X1 := swapRowsM s.X ir ic
      let pivinv : ℚ := 1 / A1 ic ic
      let A2 := Matrix.of fun r c =>
        if r = ic then (if c = ic then 1 else A1 r c) * pivinv else A1 r c
      let X2 := scaleRowM X1 ic pivinv
      let A3 := Matrix.of fun r c =>
        if r = ic then A2 r c
        else (if c = ic then (0 : ℚ) else A2 r c) - A2 ic c * A2 r ic
      let X3 := Matrix.of fun r c =>
        if r = ic then X2 r c
        else X2 r c - X2 ic c * A2 r ic
      some ⟨A3, X3, s.B, flag2, s.piv ++ [(ir, ic)]⟩

/-- The `n` iterations of the `MP_GaussJordan` main loop; on a singular
report the partially transformed state is returned on the error side. -/
def gjLoop {n m : ℕ} : ℕ → GJState n m → Except (GJState n m) (GJState n m)
  | 0, s => .ok s
  | k + 1, s =>
      match gjStep s with
      | none => .error s
      | some s2 => gjLoop k s2

/-- The final unscrambling of `MP_GaussJordan`: interchange pairs of
columns of the inverse in the reverse order that the permutation was
built. -/
def unscramble {n : ℕ} (A : Matrix (Fin n) (Fin n) ℚ)
    (piv : List (Fin n × Fin n)) : Matrix (Fin n) (Fin n) ℚ :=
  piv.reverse.foldl (fun M p => swapColsM M p.1 p.2) A

/-- Result of a direct solver: the overwritten coefficient matrix, the
solution block, and the (untouched) right-hand side; `singular` carries the
partially-modified state at the abort. -/
inductive SolveResult (n m : ℕ) where
  | ok (A : Matrix (Fin n) (Fin n) ℚ) (X B : Matrix (Fin n) (Fin m) ℚ)
  | singular (A : Matrix (Fin n) (Fin n) ℚ) (X B : Matrix (Fin n) (Fin m) ℚ)

/-- The right-hand-side component of a solver result, on both outcomes. -/
def SolveResult.rhs {n m : ℕ} : SolveResult n m → Matrix (Fin n) (Fin m) ℚ
  | .ok _ _ B => B
  | .singular _ _ B => B

/-- MP_GaussJordan from MPgauss.tpp: copy `B` into `X`, special-case the
1×1 system, otherwise run `n` full-pivoting iterations and unscramble the
column interchanges. -/
def MP_GaussJordan {n m : ℕ} (A : Matrix (Fin n) (Fin n) ℚ)
    (B : Matrix (Fin n) (Fin m) ℚ) : SolveResult n m :=
  let X := B
  if h1 : n = 1 then
    let i0 : Fin n := ⟨0, h1 ▸ Nat.one_pos⟩
    if A i0 i0 = 0 then .singular A X B
    else .ok (Matrix.of fun _ _ => 1 / A i0 i0)
             (Matrix.of fun r c => X r c / A i0 i0) B
  else
    match gjLoop n ⟨A, X, B, fun _ => false, []⟩ with
    | .error s => .singular s.A s.X s.B
    | .ok s => .ok (unscramble s.A s.piv) s.X s.B

/-- The partial-pivot search of `MP_GaussElimination` for column `col`:
scan the rows below the diagonal in order, replacing the candidate whenever
its absolute value is strictly smaller than the row being visited. -/
def gePivotRow {n : ℕ} (A : Matrix (Fin n) (Fin n) ℚ) (col : Fin n) : Fin n :=
  (List.finRange n).foldl
    (fun p (row : Fin n) =>
      if (col : ℕ) < (row : ℕ) then
        if MP_abs (A p col) < MP_abs (A row col) then row else p
      else p)
    col

/-- One column of the forward-elimination phase of `MP_GaussElimination`:
partial pivot search, zero-pivot check, row swap in `A` and `X`, and
reduction of the rows below the diagonal (skipping rows whose leading
entry is already zero, and writing an exact 0 into the eliminated entry). -/
def geStep {n m : ℕ} (s : GJState n m) (col : Fin n) : Option (GJState n m) :=
  let pivot := gePivotRow s.A col
  if s.A pivot col = 0 then none
  else
    let A1 := swapRowsM s.A pivot col
    let X1 := swapRowsM s.X pivot col
    let A2 := Matrix.of fun (r : Fin n) (c : Fin n) =>
      if (col : ℕ) < (r : ℕ) then
        if A1 r col = 0 then A1 r c
        else if c = col then 0
        else if (col : ℕ) < (c : ℕ) then A1 r c - A1 col c * (A1 r col / A1 col col)
        else A1 r c
      else A1 r c
    let X2 := Matrix.of fun (r : Fin n) (c : Fin m) =>
      if (col : ℕ) < (r : ℕ) then
        if A1 r col = 0 then X1 r c
        else X1 r c - X1 col c * (A1 r col / A1 col col)
      else X1 r c
    some ⟨A2, X2, s.B, s.flag, s.piv⟩

/-- The forward sweep of `MP_GaussElimination` over columns
`c, c+1, ...` (`fuel` many, i.e. columns `0` through `n-2` from the top
call); aborts on the singular report. -/
def geForward {n m : ℕ} : ℕ → ℕ → GJState n m →
    Except (GJState n m) (GJState n m)
  | 0, _, s => .ok s
  | fuel + 1, c, s =>
      if h : c < n then
        match geStep s ⟨c, h⟩ with
        | none => .error s
        | some s2 => geForward fuel (c + 1) s2
      else .ok s

/-- The backward-substitution loop of `MP_GaussElimination`, processing the
rows from bottom to top: with fuel `k+1` the row with index `k` is solved
(subtracting the already-solved entries below and dividing by the
diagonal), and the recursion continues downward. -/
def geBackAux {n m : ℕ} (A : Matrix (Fin n) (Fin n) ℚ) :
    ℕ → Matrix (Fin n) (Fin m) ℚ → Matrix (Fin n) (Fin m) ℚ
  | 0, X => X
  | k + 1, X =>
      geBackAux A k (Matrix.of fun r c =>
        if (r : ℕ) = k then
          (X r c - ∑ j : Fin n, if k < (j : ℕ) then A r j * X j c else 0) / A r r
        else X r c)

/-- The backward-substitution phase of `MP_GaussElimination`: rows
`n-1, n-2, ..., 0` in that order. -/
def geBackSub {n m : ℕ} (A : Matrix (Fin n) (Fin n) ℚ)
    (X0 : Matrix (Fin n) (Fin m) ℚ) : Matrix (Fin n) (Fin m) ℚ :=
  geBackAux A n X0

/-- MP_GaussElimination from MPgauss.tpp: copy `B` into `X`, special-case
the 1×1 system, otherwise forward-eliminate columns `0..n-2` with partial
pivoting and back-substitute. -/
def MP_GaussElimination {n m : ℕ} (A : Matrix (Fin n) (Fin n) ℚ)
    (B : Matrix (Fin n) (Fin m) ℚ) : SolveResult n m :=
  let X := B
  if h1 : n = 1 then
    let i0 : Fin n := ⟨0, h1 ▸ Nat.one_pos⟩
    if A i0 i0 = 0 then .singular A X B
    else .ok (Matrix.of fun _ _ => 1 / A i0 i0)
             (Matrix.of fun r c => X r c / A i0 i0) B
  else
    match geForward (n - 1) 0 ⟨A, X, B, fun _ => false, []⟩ with
    | .error s => .singular s.A s.X s.B
    | .ok s => .ok s.A (geBackSub s.A s.X) s.B

theorem gjStep_B {n m : ℕ} {s s2 : GJState n m} (h : gjStep s = some s2) :
    s2.B = s.B := by
  unfold gjStep at h
  cases hf : findPivot s.A s.flag with
  | none => rw [hf] at h; cases h
  | some v =>
    obtain ⟨big, ir, ic⟩ := v
    rw [hf] at h
    cases h
    rfl

theorem gjLoop_B {n m : ℕ} : ∀ (k : ℕ) (s t : GJState n m),
    (gjLoop k s = .ok t → t.B = s.B) ∧ (gjLoop k s = .error t → t.B = s.B) := by
  intro k
  induction k with
  | zero =>
    intro s t
    constructor
    · intro h; cases h; rfl
    · intro h; cases h
  | succ k ih =>
    intro s t
    rw [gjLoop]
    cases hs : gjStep s with
    | none =>
      constructor
      · intro h; cases h
      · intro h; cases h; rfl
    | some s2 =>
      have hB := gjStep_B hs
      constructor
      · intro h; rw [(ih s2 t).1 h, hB]
      · intro h; rw [(ih s2 t).2 h, hB]

theorem geStep_B {n m : ℕ} {s s2 : GJState n m} {col : Fin n}
    (h : geStep s col = some s2) : s2.B = s.B := by
  simp only [geStep] at h
  split at h
  · cases h
  · cases h; rfl

theorem geForward_B {n m : ℕ} : ∀ (fuel c : ℕ) (s t : GJState n m),
    (geForward fuel c s = .ok t → t.B = s.B) ∧
    (geForward fuel c s = .error t → t.B = s.B) := by
  intro fuel
  induction fuel with
  | zero =>
    intro c s t
    constructor
    · intro h; cases h; rfl
    · intro h; cases h
  | succ fuel ih =>
    intro c s t
    rw [geForward]
    split
    · next hcn =>
      cases hs : geStep s ⟨c, hcn⟩ with
      | none =>
        constructor
        · intro h; cases h
        · intro h; cases h; rfl
      | some s2 =>
        have hB := geStep_B hs
        constructor
        · intro h; rw [(ih (c + 1) s2 t).1 h, hB]
        · intro h; rw [(ih (c + 1) s2 t).2 h, hB]
    · constructor
      · intro h; cases h; rfl
      · intro h; cases h

/-- C9: neither `MP_GaussJordan` nor `MP_GaussElimination` modifies the
right-hand-side argument `B`, on every path including the singular-abort
paths: both copy `B` into `X` at entry and perform all right-hand-side work
on `X`. -/
theorem gauss_rhs_unchanged {n m : ℕ} (A : Matrix (Fin n) (Fin n) ℚ)
    (B : Matrix (Fin n) (Fin m) ℚ) :
    (MP_GaussJordan A B).rhs = B ∧ (MP_GaussElimination A B).rhs = B := by
  constructor
  · unfold MP_GaussJordan
    dsimp only
    split
    · split <;> rfl
    · cases hl : gjLoop n ⟨A, B, B, fun _ => false, []⟩ with
      | error s => exact (gjLoop_B n _ s).2 hl
      | ok s => exact (gjLoop_B n _ s).1 hl
  · unfold MP_GaussElimination
    dsimp only
    split
    · split <;> rfl
    · cases hl : geForward (n - 1) 0 ⟨A, B, B, fun _ => false, []⟩ with
      | error s => exact (geForward_B (n - 1) 0 _ s).2 hl
      | ok s => exact (geForward_B (n - 1) 0 _ s).1 hl

/-- Composite of the recorded row transpositions, latest applied first
(`g = swap_0 ∘ swap_1 ∘ ⋯`). -/
def gFun {n : ℕ} (piv : List (Fin n × Fin n)) (u : Fin n) : Fin n :=
  piv.foldr (fun p v => Equiv.swap p.1 p.2 v) u

/-- Composite of the recorded transpositions applied in recording order,
earliest first; this is the index map realized by the final column
unscrambling. -/
def hFun {n : ℕ} (piv : List (Fin n × Fin n)) (c : Fin n) : Fin n :=
  piv.foldl (fun v p => Equiv.swap p.1 p.2 v) c

theorem gFun_append {n : ℕ} (piv : List (Fin n × Fin n)) (p : Fin n × Fin n)
    (u : Fin n) : gFun (piv ++ [p]) u = gFun piv (Equiv.swap p.1 p.2 u) := by
  unfold gFun
  rw [List.foldr_append]
  rfl

theorem gFun_hFun {n : ℕ} : ∀ (piv : List (Fin n × Fin n)) (c : Fin n),
    gFun piv (hFun piv c) = c := by
  intro piv
  induction piv with
  | nil => intro c; rfl
  | cons p rest ih =>
    intro c
    show Equiv.swap p.1 p.2 (gFun rest (hFun rest (Equiv.swap p.1 p.2 c))) = c
    rw [ih, Equiv.swap_apply_self]

theorem swapColsM_apply {n m : ℕ} (M : Matrix (Fin n) (Fin m) ℚ)
    (p : Fin m × Fin m) (r : Fin n) (c : Fin m) :
    swapColsM M p.1 p.2 r c = M r (Equiv.swap p.1 p.2 c) := by
  rw [swapColsM, Equiv.swap_apply_def]
  simp only [Matrix.of_apply]
  split_ifs <;> rfl

theorem unscramble_apply {n : ℕ} :
    ∀ (piv : List (Fin n × Fin n)) (M : Matrix (Fin n) (Fin n) ℚ)
      (r c : Fin n), unscramble M piv r c = M r (hFun piv c) := by
  intro piv
  induction piv with
  | nil => intro M r c; rfl
  | cons p rest ih =>
    intro M r c
    have hstep : unscramble M (p :: rest) = swapColsM (unscramble M rest) p.1 p.2 := by
      unfold unscramble
      rw [List.reverse_cons, List.foldl_append]
      rfl
    rw [hstep, swapColsM_apply, ih]
    rfl

theorem swapRowsM_apply {n m : ℕ} (M : Matrix (Fin n) (Fin m) ℚ)
    (i j : Fin n) (r : Fin n) (c : Fin m) :
    swapRowsM M i j r c = M (Equiv.swap i j r) c := by
  rw [swapRowsM, Equiv.swap_apply_def]
  simp only [Matrix.of_apply]
  split_ifs <;> rfl

theorem swapRowsM_mul {n k m : ℕ} (M : Matrix (Fin n) (Fin k) ℚ)
    (N : Matrix (Fin k) (Fin m) ℚ) (i j : Fin n) :
    swapRowsM (M * N) i j = swapRowsM M i j * N := by
  funext r c
  rw [swapRowsM_apply, Matrix.mul_apply, Matrix.mul_apply]
  exact Finset.sum_congr rfl fun t _ => by rw [swapRowsM_apply]

theorem scaleRowM_mul {n k m : ℕ} (M : Matrix (Fin n) (Fin k) ℚ)
    (N : Matrix (Fin k) (Fin m) ℚ) (i : Fin n) (t : ℚ) :
    scaleRowM (M * N) i t = scaleRowM M i t * N := by
  funext r c
  by_cases h : r = i
  · simp only [scaleRowM, Matrix.of_apply, if_pos h, Matrix.mul_apply,
      Finset.sum_mul]
    exact Finset.sum_congr rfl fun s _ => by ring
  · simp only [scaleRowM, Matrix.of_apply, if_neg h, Matrix.mul_apply]

theorem elimRowsM_mul {n k m : ℕ} (M : Matrix (Fin n) (Fin k) ℚ)
    (N : Matrix (Fin k) (Fin m) ℚ) (ic : Fin n) (coef : Fin n → ℚ) :
    elimRowsM (M * N) ic coef = elimRowsM M ic coef * N := by
  funext r c
  by_cases h : r = ic
  · simp only [elimRowsM, Matrix.of_apply, if_pos h, Matrix.mul_apply]
  · simp only [elimRowsM, Matrix.of_apply, if_neg h, Matrix.mul_apply]
    rw [Finset.sum_mul, ← Finset.sum_sub_distrib]
    exact Finset.sum_congr rfl fun s _ => by ring

/-- What a `some` accumulator of the pivot search certifies. -/
def fpGood {n : ℕ} (A : Matrix (Fin n) (Fin n) ℚ) (flag : Fin n → Bool)
    (acc : Option (ℚ × Fin n × Fin n)) : Prop :=
  ∀ b r c, acc = some (b, r, c) →
    flag r = false ∧ flag c = false ∧ 0 < b ∧ b = MP_abs (A r c)

theorem fpInner_good {n : ℕ} {A : Matrix (Fin n) (Fin n) ℚ}
    {flag : Fin n → Bool} {row : Fin n} (hrow : flag row = false)
    {acc : Option (ℚ × Fin n × Fin n)} (hacc : fpGood A flag acc)
    (col : Fin n) : fpGood A flag (fpInner A flag row acc col) := by
  unfold fpInner
  split
  · exact hacc
  · next hcol =>
    have hcol2 : flag col = false := by
      cases hfc : flag col
      · rfl
      · exact absurd hfc hcol
    cases acc with
    | none =>
      dsimp only
      split
      · next hv =>
        intro b r c heq
        simp only [Option.some.injEq, Prod.mk.injEq] at heq
        obtain ⟨rfl, rfl, rfl⟩ := heq
        exact ⟨hrow, hcol2, hv, rfl⟩
      · intro b r c heq; cases heq
    | some v =>
      obtain ⟨big, rc⟩ := v
      dsimp only
      split
      · next hv =>
        intro b r c heq
        simp only [Option.some.injEq, Prod.mk.injEq] at heq
        obtain ⟨rfl, rfl, rfl⟩ := heq
        have hbig := hacc big rc.1 rc.2 rfl
        exact ⟨hrow, hcol2, lt_trans hbig.2.2.1 hv, rfl⟩
      · intro b r c heq
        simp only [Option.some.injEq, Prod.mk.injEq] at heq
        obtain ⟨rfl, rfl, rfl⟩ := heq
        exact hacc big r c rfl

theorem findPivot_good {n : ℕ} (A : Matrix (Fin n) (Fin n) ℚ)
    (flag : Fin n → Bool) : fpGood A flag (findPivot A flag) := by
  have hfold : ∀ (l : List (Fin n)) (acc : Option (ℚ × Fin n × Fin n)),
      fpGood A flag acc → fpGood A flag (l.foldl (fpOuter A flag) acc) := by
    intro l
    induction l with
    | nil => intro acc hacc; exact hacc
    | cons row rest ih =>
      intro acc hacc
      apply ih
      unfold fpOuter
      split
      · exact hacc
      · next hrow =>
        have hrow2 : flag row = false := by
          cases hfr : flag row
          · rfl
          · exact absurd hfr hrow
        have hinner : ∀ (l2 : List (Fin n)) (acc2 : Option (ℚ × Fin n × Fin n)),
            fpGood A flag acc2 →
            fpGood A flag (l2.foldl (fpInner A flag row) acc2) := by
          intro l2
          induction l2 with
          | nil => intro acc2 h2; exact h2
          | cons col rest2 ih2 =>
            intro acc2 h2
            exact ih2 _ (fpInner_good hrow2 h2 col)
        exact hinner _ _ hacc
  exact hfold _ none (fun b r c h => by cases h)

theorem findPivot_spec {n : ℕ} {A : Matrix (Fin n) (Fin n) ℚ}
    {flag : Fin n → Bool} {big : ℚ} {ir ic : Fin n}
    (h : findPivot A flag = some (big, ir, ic)) :
    flag ir = false ∧ flag ic = false ∧ 0 < big ∧ big = MP_abs (A ir ic) :=
  findPivot_good A flag big ir ic h

theorem MP_abs_pos_ne {a : ℚ} (h : 0 < MP_abs a) : a ≠ 0 := by
  rw [MP_abs_eq_abs] at h
  exact abs_pos.mp h

/-- Ghost coupling invariant for the `MP_GaussJordan` loop: the untouched
right-hand side, the flag/record bookkeeping, and a pair of ghost matrices
`C` (the virtually reduced coefficient matrix) and `L` (the accumulated row
operations applied to the identity) such that the pivoted columns of `C`
are standard basis columns, the physical `A` stores `C` on unpivoted
columns and a permuted column of `L` on pivoted columns, and `X` carries
`L · B`. -/
def gjInv {n m : ℕ} (A0 : Matrix (Fin n) (Fin n) ℚ)
    (B0 : Matrix (Fin n) (Fin m) ℚ) (s : GJState n m) : Prop :=
  s.B = B0 ∧
  (∀ c, s.flag c = true ↔ c ∈ s.piv.map Prod.snd) ∧
  (s.piv.map Prod.snd).Nodup ∧
  ∃ C L : Matrix (Fin n) (Fin n) ℚ,
    C = L * A0 ∧
    s.X = L * B0 ∧
    (∀ c, s.flag c = true → ∀ r, C r c = if r = c then (1 : ℚ) else 0) ∧
    (∀ u, s.flag u = false → ∀ r,
        L r (gFun s.piv u) = if r = u then (1 : ℚ) else 0) ∧
    (∀ c, s.flag c = false → ∀ r, s.A r c = C r c) ∧
    (∀ c, s.flag c = true → ∀ r, s.A r c = L r (gFun s.piv c))

theorem gjStep_inv {n m : ℕ} {A0 : Matrix (Fin n) (Fin n) ℚ}
    {B0 : Matrix (Fin n) (Fin m) ℚ} {s s2 : GJState n m}
    (hinv : gjInv A0 B0 s) (h : gjStep s = some s2) :
    gjInv A0 B0 s2 ∧ s2.piv.length = s.piv.length + 1 := by
  obtain ⟨hB, hflag, hnd, C, L, hCL, hX, hCflag, hLbasis, hAC, hAL⟩ := hinv
  unfold gjStep at h
  cases hf : findPivot s.A s.flag with
  | none => rw [hf] at h; cases h
  | some v =>
    obtain ⟨big, ir, ic⟩ := v
    rw [hf] at h
    obtain ⟨hir, hic, hbigpos, hbigeq⟩ := findPivot_spec hf
    have hs2 := (Option.some.inj h).symm
    subst hs2
    set τ : Equiv.Perm (Fin n) := Equiv.swap ir ic with hτ
    set A1 : Matrix (Fin n) (Fin n) ℚ := swapRowsM s.A ir ic with hA1
    set pivinv : ℚ := 1 / A1 ic ic with hpivinv
    set A2 : Matrix (Fin n) (Fin n) ℚ := Matrix.of fun r c =>
      if r = ic then (if c = ic then 1 else A1 r c) * pivinv else A1 r c with hA2
    set coef : Fin n → ℚ := fun r => A2 r ic with hcoefdef
    set C1 : Matrix (Fin n) (Fin n) ℚ := swapRowsM C ir ic with hC1
    set C2 : Matrix (Fin n) (Fin n) ℚ := scaleRowM C1 ic pivinv with hC2
    set C3 : Matrix (Fin n) (Fin n) ℚ := elimRowsM C2 ic coef with hC3
    set L1 : Matrix (Fin n) (Fin n) ℚ := swapRowsM L ir ic with hL1def
    set L2 : Matrix (Fin n) (Fin n) ℚ := scaleRowM L1 ic pivinv with hL2def
    set L3 : Matrix (Fin n) (Fin n) ℚ := elimRowsM L2 ic coef with hL3def
    -- basic facts
    have hA1icic : A1 ic ic = s.A ir ic := by
      rw [hA1, swapRowsM_apply]
      congr 1
      exact Equiv.swap_apply_right ir ic
    have hAirne : s.A ir ic ≠ 0 := MP_abs_pos_ne (hbigeq ▸ hbigpos)
    have hA1ne : A1 ic ic ≠ 0 := by rw [hA1icic]; exact hAirne
    have hτfix : ∀ c, s.flag c = true → τ c = c := by
      intro c hc
      apply Equiv.swap_apply_of_ne_of_ne
      · intro hce; rw [hce] at hc; rw [hc] at hir; cases hir
      · intro hce; rw [hce] at hc; rw [hc] at hic; cases hic
    have hτunflag : ∀ u, s.flag u = false → s.flag (τ u) = false := by
      intro u hu
      rw [hτ, Equiv.swap_apply_def]
      split_ifs with h1 h2
      · exact hic
      · exact hir
      · exact hu
    have hA1C1 : ∀ c, s.flag c = false → ∀ r, A1 r c = C1 r c := by
      intro c hc r
      rw [hA1, hC1, swapRowsM_apply, swapRowsM_apply]
      exact hAC c hc _
    have hC2icic : C2 ic ic = 1 := by
      rw [hC2, scaleRowM]
      simp only [Matrix.of_apply, if_pos rfl]
      rw [← hA1C1 ic hic ic, hpivinv]
      exact mul_one_div_cancel hA1ne
    have hC1colic : ∀ r, C1 r ic = A1 r ic := fun r => (hA1C1 ic hic r).symm
    have hcoef : ∀ r, r ≠ ic → coef r = C2 r ic := by
      intro r hr
      rw [hcoefdef]
      show A2 r ic = C2 r ic
      rw [hA2, hC2, scaleRowM]
      simp only [Matrix.of_apply, if_neg hr]
      rw [hC1colic]
    have hC1flag : ∀ c, s.flag c = true → ∀ r,
        C1 r c = if r = c then (1 : ℚ) else 0 := by
      intro c hc r
      rw [hC1, swapRowsM_apply, hCflag c hc]
      have hiff : τ r = c ↔ r = c := by
        constructor
        · intro hq
          have : τ r = τ c := by rw [hq, hτfix c hc]
          exact τ.injective this
        · intro hq; rw [hq, hτfix c hc]
      by_cases hrc : r = c
      · rw [if_pos (hiff.mpr hrc), if_pos hrc]
      · rw [if_neg (fun hq => hrc (hiff.mp hq)), if_neg hrc]
    have hC2flag : ∀ c, s.flag c = true → ∀ r,
        C2 r c = if r = c then (1 : ℚ) else 0 := by
      intro c hc r
      rw [hC2, scaleRowM]
      simp only [Matrix.of_apply]
      by_cases h1 : r = ic
      · rw [if_pos h1, hC1flag c hc]
        have hne : ¬ r = c := by
          intro hrc
          rw [h1] at hrc
          rw [← hrc] at hc
          rw [hc] at hic
          cases hic
        rw [if_neg hne, zero_mul]
      · rw [if_neg h1]
        exact hC1flag c hc r
    -- the new flag function and pivot list
    have hflag2 : ∀ c, (if c = ic then true else s.flag c) = true ↔
        c ∈ (s.piv ++ [(ir, ic)]).map Prod.snd := by
      intro c
      rw [List.map_append, List.mem_append]
      by_cases hcic : c = ic
      · simp [hcic]
      · rw [if_neg hcic, hflag c]
        simp only [List.map_cons, List.map_nil, List.mem_singleton]
        exact ⟨fun hm => Or.inl hm, fun hm => hm.elim id (fun he => absurd he hcic)⟩
    have hicnot : ic ∉ s.piv.map Prod.snd := by
      intro hmem
      rw [← hflag ic] at hmem
      rw [hmem] at hic
      cases hic
    refine ⟨⟨hB, hflag2, ?_, C3, L3, ?_, ?_, ?_, ?_, ?_, ?_⟩, ?_⟩
    · -- nodup
      rw [List.map_append]
      simp only [List.map_cons, List.map_nil]
      rw [List.nodup_append]
      exact ⟨hnd, List.nodup_singleton ic,
        fun a ha hb => by
          rw [List.mem_singleton] at hb
          rw [hb] at ha
          exact hicnot ha⟩
    · -- C3 = L3 * A0
      rw [hC3, hC2, hC1, hCL, swapRowsM_mul, scaleRowM_mul, elimRowsM_mul,
        ← hL1def, ← hL2def, ← hL3def]
    · -- X3 = L3 * B0
      show elimRowsM (scaleRowM (swapRowsM s.X ir ic) ic pivinv) ic coef = L3 * B0
      rw [hX, swapRowsM_mul, scaleRowM_mul, elimRowsM_mul,
        ← hL1def, ← hL2def, ← hL3def]
    · -- flagged columns of C3 are basis columns
      intro c hc r
      show elimRowsM C2 ic coef r c = _
      rw [elimRowsM]
      simp only [Matrix.of_apply]
      by_cases hcic : c = ic
      · subst hcic
        by_cases h1 : r = c
        · rw [if_pos h1, h1, hC2icic, if_pos rfl]
        · rw [if_neg h1, hC2icic, one_mul, hcoef r h1, sub_self, if_neg h1]
      · have hcold : s.flag c = true := by
          have hq := hc
          simp only [GJState.flag] at hq
          rw [if_neg hcic] at hq
          exact hq
        have hC2ic_c : C2 ic c = 0 := by
          rw [hC2flag c hcold ic]
          rw [if_neg (show ¬ (ic = c) from fun hq => hcic hq.symm)]
        by_cases h1 : r = ic
        · rw [if_pos h1, h1, hC2ic_c,
            if_neg (show ¬ (ic = c) from fun hq => hcic hq.symm)]
        · rw [if_neg h1, hC2flag c hcold r, hC2ic_c, zero_mul, sub_zero]
    · -- basis columns of L3 for unpivoted u
      intro u hu r
      have hune : u ≠ ic := by
        intro he
        simp only [GJState.flag] at hu
        rw [if_pos he] at hu
        cases hu
      have huold : s.flag u = false := by
        simp only [GJState.flag] at hu
        rw [if_neg hune] at hu
        exact hu
      show elimRowsM L2 ic coef r _ = _
      have hg : gFun (s.piv ++ [(ir, ic)]) u = gFun s.piv (τ u) :=
        gFun_append s.piv (ir, ic) u
      have hL1u : ∀ r2, L1 r2 (gFun s.piv (τ u)) = if r2 = u then (1:ℚ) else 0 := by
        intro r2
        rw [hL1def, swapRowsM_apply, hLbasis (τ u) (hτunflag u huold)]
        by_cases hru : r2 = u
        · rw [if_pos (by rw [hru]), if_pos hru]
        · rw [if_neg (fun hq => hru (τ.injective hq)), if_neg hru]
      have hL2u : ∀ r2, L2 r2 (gFun s.piv (τ u)) = if r2 = u then (1:ℚ) else 0 := by
        intro r2
        rw [hL2def, scaleRowM]
        simp only [Matrix.of_apply]
        by_cases h1 : r2 = ic
        · rw [if_pos h1, h1, hL1u ic,
            if_neg (show ¬ (ic = u) from fun hq => hune hq.symm), zero_mul]
        · rw [if_neg h1]
          exact hL1u r2
      rw [hg, elimRowsM]
      simp only [Matrix.of_apply]
      by_cases h1 : r = ic
      · rw [if_pos h1, h1, hL2u ic]
      · rw [if_neg h1, hL2u r, hL2u ic,
          if_neg (show ¬ (ic = u) from fun hq => hune hq.symm), zero_mul, sub_zero]
    · -- unpivoted columns of the physical matrix carry C3
      intro c hc r
      have hcic : c ≠ ic := by
        intro he
        simp only [GJState.flag] at hc
        rw [if_pos he] at hc
        cases hc
      have hcold : s.flag c = false := by
        simp only [GJState.flag] at hc
        rw [if_neg hcic] at hc
        exact hc
      have hA2C2 : ∀ r2, A2 r2 c = C2 r2 c := by
        intro r2
        rw [hA2, hC2, scaleRowM]
        simp only [Matrix.of_apply]
        by_cases h1 : r2 = ic
        · rw [if_pos h1, if_pos h1, if_neg hcic, hA1C1 c hcold]
        · rw [if_neg h1, if_neg h1]
          exact hA1C1 c hcold r2
      show Matrix.of _ r c = elimRowsM C2 ic coef r c
      rw [elimRowsM]
      simp only [Matrix.of_apply]
      by_cases h1 : r = ic
      · rw [if_pos h1, if_pos h1]
        exact hA2C2 r
      · rw [if_neg h1, if_neg h1, if_neg hcic, hA2C2 r, hA2C2 ic]
    · -- pivoted columns of the physical matrix carry L3 ∘ g
      intro c hc r
      by_cases hcic : c = ic
      · subst hcic
        have hg : gFun (s.piv ++ [(ir, c)]) c = gFun s.piv (τ c) :=
          gFun_append s.piv (ir, c) c
        have hL1ic : ∀ r2, L1 r2 (gFun s.piv (τ c)) = if r2 = c then (1:ℚ) else 0 := by
          intro r2
          rw [hL1def, swapRowsM_apply, hLbasis (τ c) (hτunflag c hic)]
          by_cases hrc : r2 = c
          · rw [if_pos (by rw [hrc]), if_pos hrc]
          · rw [if_neg (fun hq => hrc (τ.injective hq)), if_neg hrc]
        have hL2ic : ∀ r2, L2 r2 (gFun s.piv (τ c)) =
            if r2 = c then pivinv else 0 := by
          intro r2
          rw [hL2def, scaleRowM]
          simp only [Matrix.of_apply]
          by_cases h1 : r2 = c
          · rw [if_pos h1, h1, hL1ic c]
            simp only [eq_self_iff_true, if_true, one_mul]
          · rw [if_neg h1, hL1ic r2, if_neg h1, if_neg h1]
        have hA2cc : A2 c c = pivinv := by
          rw [hA2]
          simp only [Matrix.of_apply, eq_self_iff_true, if_true, one_mul]
        show Matrix.of _ r c = elimRowsM L2 c coef r _
        rw [hg, elimRowsM]
        simp only [Matrix.of_apply]
        by_cases h1 : r = c
        · rw [if_pos h1, if_pos h1, h1, hL2ic c]
          simp only [eq_self_iff_true, if_true]
          exact hA2cc
        · rw [if_neg h1, if_neg h1, hL2ic r, hL2ic c, if_neg h1]
          simp only [eq_self_iff_true, if_true]
          rw [hA2cc]
      · have hcold : s.flag c = true := by
          have hq := hc
          simp only [GJState.flag] at hq
          rw [if_neg hcic] at hq
          exact hq
        have hg : gFun (s.piv ++ [(ir, ic)]) c = gFun s.piv c := by
          rw [gFun_append, hτfix c hcold]
        have hA1L1 : ∀ r2, A1 r2 c = L1 r2 (gFun s.piv c) := by
          intro r2
          rw [hA1, hL1def, swapRowsM_apply, swapRowsM_apply]
          exact hAL c hcold _
        have hA2L2 : ∀ r2, A2 r2 c = L2 r2 (gFun s.piv c) := by
          intro r2
          rw [hA2, hL2def, scaleRowM]
          simp only [Matrix.of_apply]
          by_cases h1 : r2 = ic
          · rw [if_pos h1, if_pos h1, if_neg hcic, hA1L1 r2]
          · rw [if_neg h1, if_neg h1]
            exact hA1L1 r2
        show Matrix.of _ r c = elimRowsM L2 ic coef r _
        rw [hg, elimRowsM]
        simp only [Matrix.of_apply]
        by_cases h1 : r = ic
        · rw [if_pos h1, if_pos h1]
          exact hA2L2 r
        · rw [if_neg h1, if_neg h1, if_neg hcic, hA2L2 r, hA2L2 ic]
    · -- pivot list grows by one
      show (s.piv ++ [(ir, ic)]).length = s.piv.length + 1
      rw [List.length_append]
      rfl

theorem gjLoop_inv {n m : ℕ} {A0 : Matrix (Fin n) (Fin n) ℚ}
    {B0 : Matrix (Fin n) (Fin m) ℚ} :
    ∀ (k : ℕ) {s t : GJState n m}, gjInv A0 B0 s → gjLoop k s = .ok t →
      gjInv A0 B0 t ∧ t.piv.length = s.piv.length + k := by
  intro k
  induction k with
  | zero =>
    intro s t hinv h
    cases h
    exact ⟨hinv, rfl⟩
  | succ k ih =>
    intro s t hinv h
    rw [gjLoop] at h
    cases hs : gjStep s with
    | none => rw [hs] at h; cases h
    | some s2 =>
      rw [hs] at h
      obtain ⟨hinv2, hlen2⟩ := gjStep_inv hinv hs
      obtain ⟨hinvt, hlent⟩ := ih hinv2 h
      exact ⟨hinvt, by omega⟩

theorem gjInv_init {n m : ℕ} (A : Matrix (Fin n) (Fin n) ℚ)
    (B : Matrix (Fin n) (Fin m) ℚ) :
    gjInv A B ⟨A, B, B, fun _ => false, []⟩ := by
  refine ⟨rfl, ?_, List.nodup_nil, A, 1, (Matrix.one_mul A).symm,
    (Matrix.one_mul B).symm, ?_, ?_, ?_, ?_⟩
  · intro c
    simp
  · intro c hc
    cases hc
  · intro u _ r
    show (1 : Matrix (Fin n) (Fin n) ℚ) r u = _
    rw [Matrix.one_apply]
  · intro c _ r
    rfl
  · intro c hc
    cases hc

theorem gaussJordan_solves {n m : ℕ} {A Ai : Matrix (Fin n) (Fin n) ℚ}
    {B X B2 : Matrix (Fin n) (Fin m) ℚ}
    (h : MP_GaussJordan A B = .ok Ai X B2) :
    A * X = B ∧ A * Ai = 1 ∧ Ai * A = 1 := by
  unfold MP_GaussJordan at h
  dsimp only at h
  split at h
  · next h1 =>
    subst h1
    split at h
    · cases h
    · next hA00 =>
      cases h
      have hall : ∀ r k : Fin 1, (r : ℕ) = 0 ∧ (k : ℕ) = 0 := by
        intro r k
        omega
      refine ⟨?_, ?_, ?_⟩
      · funext r c
        rw [Matrix.mul_apply, Fin.sum_univ_one]
        have hr : r = 0 := Subsingleton.elim r 0
        subst hr
        show A 0 0 * (B 0 c / A ⟨0, Nat.one_pos⟩ ⟨0, Nat.one_pos⟩) = B 0 c
        exact mul_div_cancel₀ _ hA00
      · funext r c
        rw [Matrix.mul_apply, Fin.sum_univ_one]
        have hr : r = 0 := Subsingleton.elim r 0
        have hcz : c = 0 := Subsingleton.elim c 0
        subst hr; subst hcz
        show A 0 0 * (1 / A ⟨0, Nat.one_pos⟩ ⟨0, Nat.one_pos⟩) = (1 : Matrix (Fin 1) (Fin 1) ℚ) 0 0
        rw [Matrix.one_apply_eq]
        exact mul_one_div_cancel hA00
      · funext r c
        rw [Matrix.mul_apply, Fin.sum_univ_one]
        have hr : r = 0 := Subsingleton.elim r 0
        have hcz : c = 0 := Subsingleton.elim c 0
        subst hr; subst hcz
        show 1 / A ⟨0, Nat.one_pos⟩ ⟨0, Nat.one_pos⟩ *
            A ⟨0, Nat.one_pos⟩ ⟨0, Nat.one_pos⟩ = (1 : Matrix (Fin 1) (Fin 1) ℚ) 0 0
        rw [Matrix.one_apply_eq]
        rw [one_div, inv_mul_cancel₀ hA00]
  · next h1 =>
    cases hl : gjLoop n (⟨A, B, B, fun _ => false, []⟩ : GJState n m) with
    | error s => rw [hl] at h; cases h
    | ok t =>
      rw [hl] at h
      cases h
      obtain ⟨hinv, hlen⟩ := gjLoop_inv n (gjInv_init A B) hl
      obtain ⟨hB, hflag, hnd, C, L, hCL, hX, hCflag, hLbasis, hAC, hAL⟩ := hinv
      -- every column is flagged
      have hlen0 : (⟨A, B, B, fun _ => false, []⟩ : GJState n m).piv.length = 0 := rfl
      have hlen2 : (t.piv.map Prod.snd).length = n := by
        rw [List.length_map]
        omega
      have hallmem : ∀ c : Fin n, c ∈ t.piv.map Prod.snd := by
        intro c
        have hcard : (t.piv.map Prod.snd).toFinset.card = n := by
          rw [List.toFinset_card_of_nodup hnd, hlen2]
        have huniv : (t.piv.map Prod.snd).toFinset = Finset.univ :=
          Finset.eq_univ_of_card _ (by rw [hcard, Fintype.card_fin])
        have : c ∈ (t.piv.map Prod.snd).toFinset := by
          rw [huniv]; exact Finset.mem_univ c
        exact List.mem_toFinset.mp this
      have hallflag : ∀ c : Fin n, t.flag c = true :=
        fun c => (hflag c).mpr (hallmem c)
      -- the ghost coefficient matrix has become the identity
      have hC1 : C = 1 := by
        funext r c
        rw [hCflag c (hallflag c) r, Matrix.one_apply]
      have hLA : L * A = 1 := by rw [← hCL, hC1]
      have hAL1 : A * L = 1 := Matrix.mul_eq_one_comm.mp hLA
      -- the unscrambled physical matrix is the ghost L
      have hunsc : unscramble t.A t.piv = L := by
        funext r c
        rw [unscramble_apply, hAL _ (hallflag _) r, gFun_hFun]
      refine ⟨?_, ?_, ?_⟩
      · rw [hX, ← Matrix.mul_assoc, hAL1, Matrix.one_mul]
      · rw [hunsc]; exact hAL1
      · rw [hunsc]; exact hLA

/-- C1: when `MP_GaussJordan(A, B, X)` completes without a singularity
report (also through the special-cased 1×1 path), the produced solution
block satisfies `A · X = B` exactly, and `A` has been overwritten with the
exact inverse of the original `A` (two-sided). -/
theorem gaussJordan_correct {n m : ℕ} {A Ai : Matrix (Fin n) (Fin n) ℚ}
    {B X B2 : Matrix (Fin n) (Fin m) ℚ}
    (h : MP_GaussJordan A B = .ok Ai X B2) :
    A * X = B ∧ A * Ai = 1 ∧ Ai * A = 1 :=
  gaussJordan_solves h

/-- Witness for C1 through the 1×1 special-cased path. -/
theorem gaussJordan_correct_witness :
    (MP_GaussJordan (Matrix.of fun _ _ : Fin 1 => (2 : ℚ))
        (Matrix.of fun _ _ : Fin 1 => (4 : ℚ)) =
      .ok (Matrix.of fun _ _ => (1 : ℚ) / 2) (Matrix.of fun _ _ => (2 : ℚ))
        (Matrix.of fun _ _ => (4 : ℚ))) ∧
    ((Matrix.of fun _ _ : Fin 1 => (2 : ℚ)) * (Matrix.of fun _ _ => (2 : ℚ)) =
        Matrix.of fun _ _ => (4 : ℚ)) ∧
    ((Matrix.of fun _ _ : Fin 1 => (2 : ℚ)) * (Matrix.of fun _ _ => (1 : ℚ) / 2) = 1) ∧
    ((Matrix.of fun _ _ : Fin 1 => (1 : ℚ) / 2) * (Matrix.of fun _ _ => (2 : ℚ)) = 1) := by
  have heq : MP_GaussJordan (Matrix.of fun _ _ : Fin 1 => (2 : ℚ))
      (Matrix.of fun _ _ : Fin 1 => (4 : ℚ)) =
      .ok (Matrix.of fun _ _ => (1 : ℚ) / 2) (Matrix.of fun _ _ => (2 : ℚ))
        (Matrix.of fun _ _ => (4 : ℚ)) := by
    unfold MP_GaussJordan
    rw [dif_pos rfl, if_neg (by norm_num [Matrix.of_apply])]
    congr 1 <;> funext r c <;> norm_num [Matrix.of_apply]
  exact ⟨heq, gaussJordan_correct heq⟩

/-! ### Correctness of the Gaussian-elimination path -/

theorem swapRowsM_one_mul {n m : ℕ} (M : Matrix (Fin n) (Fin m) ℚ)
    (i j : Fin n) : swapRowsM M i j = swapRowsM 1 i j * M := by
  have h := swapRowsM_mul (1 : Matrix (Fin n) (Fin n) ℚ) M i j
  rwa [Matrix.one_mul] at h

theorem elimRowsM_one_mul {n m : ℕ} (M : Matrix (Fin n) (Fin m) ℚ)
    (ic : Fin n) (coef : Fin n → ℚ) :
    elimRowsM M ic coef = elimRowsM 1 ic coef * M := by
  have h := elimRowsM_mul (1 : Matrix (Fin n) (Fin n) ℚ) M ic coef
  rwa [Matrix.one_mul] at h

theorem swapRowsM_invol {n m : ℕ} (M : Matrix (Fin n) (Fin m) ℚ)
    (i j : Fin n) : swapRowsM (swapRowsM M i j) i j = M := by
  funext r c
  rw [swapRowsM_apply, swapRowsM_apply, Equiv.swap_apply_self]

theorem swapRowsM_one_sq {n : ℕ} (i j : Fin n) :
    swapRowsM (1 : Matrix (Fin n) (Fin n) ℚ) i j *
      swapRowsM (1 : Matrix (Fin n) (Fin n) ℚ) i j = 1 := by
  rw [← swapRowsM_one_mul, swapRowsM_invol]

theorem elimRowsM_cancel {n m : ℕ} (M : Matrix (Fin n) (Fin m) ℚ)
    (ic : Fin n) (coef : Fin n → ℚ) :
    elimRowsM (elimRowsM M ic coef) ic (fun r => -(coef r)) = M := by
  funext r c
  by_cases h : r = ic
  · simp only [elimRowsM, Matrix.of_apply, if_pos h]
  · simp only [elimRowsM, Matrix.of_apply, if_neg h, eq_self_iff_true, if_true]
    ring

theorem elimRowsM_cancel2 {n m : ℕ} (M : Matrix (Fin n) (Fin m) ℚ)
    (ic : Fin n) (coef : Fin n → ℚ) :
    elimRowsM (elimRowsM M ic (fun r => -(coef r))) ic coef = M := by
  funext r c
  by_cases h : r = ic
  · simp only [elimRowsM, Matrix.of_apply, if_pos h]
  · simp only [elimRowsM, Matrix.of_apply, if_neg h, eq_self_iff_true, if_true]
    ring

theorem elimRowsM_neg_mul {n : ℕ} (ic : Fin n) (coef : Fin n → ℚ) :
    elimRowsM (1 : Matrix (Fin n) (Fin n) ℚ) ic (fun r => -(coef r)) *
      elimRowsM (1 : Matrix (Fin n) (Fin n) ℚ) ic coef = 1 := by
  rw [← elimRowsM_one_mul]
  exact elimRowsM_cancel 1 ic coef

theorem elimRowsM_mul_neg {n : ℕ} (ic : Fin n) (coef : Fin n → ℚ) :
    elimRowsM (1 : Matrix (Fin n) (Fin n) ℚ) ic coef *
      elimRowsM (1 : Matrix (Fin n) (Fin n) ℚ) ic (fun r => -(coef r)) = 1 := by
  rw [← elimRowsM_one_mul]
  exact elimRowsM_cancel2 1 ic coef

/-- The partial-pivot search never returns a row above the diagonal. -/
theorem gePivotRow_ge {n : ℕ} (A : Matrix (Fin n) (Fin n) ℚ) (col : Fin n) :
    (col : ℕ) ≤ ((gePivotRow A col : Fin n) : ℕ) := by
  have hfold : ∀ (l : List (Fin n)) (p : Fin n), (col : ℕ) ≤ (p : ℕ) →
      (col : ℕ) ≤ ((l.foldl
        (fun p (row : Fin n) =>
          if (col : ℕ) < (row : ℕ) then
            if MP_abs (A p col) < MP_abs (A row col) then row else p
          else p) p : Fin n) : ℕ) := by
    intro l
    induction l with
    | nil => intro p hp; exact hp
    | cons a t ih =>
      intro p hp
      simp only [List.foldl_cons]
      apply ih
      by_cases h1 : (col : ℕ) < (a : ℕ)
      · rw [if_pos h1]
        by_cases h2 : MP_abs (A p col) < MP_abs (A a col)
        · rw [if_pos h2]; omega
        · rw [if_neg h2]; exact hp
      · rw [if_neg h1]; exact hp
  exact hfold (List.finRange n) col le_rfl

/-- The multiplier column used by one forward-elimination step: rows below
the diagonal get `A1[row,col] / A1[col,col]` (or 0 when the leading entry
is already zero), all other rows get 0. -/
def geCoef {n : ℕ} (A1 : Matrix (Fin n) (Fin n) ℚ) (col : Fin n)
    (r : Fin n) : ℚ :=
  if (col : ℕ) < (r : ℕ) then
    (if A1 r col = 0 then 0 else A1 r col / A1 col col)
  else 0

/-- The in-place update of the coefficient matrix performed by one
forward-elimination step coincides with the row operation `elimRowsM` at
the multipliers `geCoef`, provided the pivot is nonzero and the pivot row
is already zero left of the diagonal. -/
theorem geA2_elim {n : ℕ} (A1 : Matrix (Fin n) (Fin n) ℚ) (col : Fin n)
    (hdiag : A1 col col ≠ 0)
    (hzc : ∀ c : Fin n, (c : ℕ) < (col : ℕ) → A1 col c = 0) :
    (Matrix.of fun (r c : Fin n) =>
      if (col : ℕ) < (r : ℕ) then
        if A1 r col = 0 then A1 r c
        else if c = col then 0
        else if (col : ℕ) < (c : ℕ) then A1 r c - A1 col c * (A1 r col / A1 col col)
        else A1 r c
      else A1 r c) = elimRowsM A1 col (geCoef A1 col) := by
  funext r c
  simp only [Matrix.of_apply, elimRowsM, geCoef]
  by_cases hr : (col : ℕ) < (r : ℕ)
  · have hrne : r ≠ col := Fin.ne_of_val_ne (by omega)
    rw [if_pos hr, if_pos hr, if_neg hrne]
    by_cases h0 : A1 r col = 0
    · rw [if_pos h0, if_pos h0, mul_zero, sub_zero]
    · rw [if_neg h0, if_neg h0]
      by_cases hc : c = col
      · subst hc
        rw [if_pos rfl, mul_comm (A1 c c), div_mul_cancel₀ _ hdiag, sub_self]
      · rw [if_neg hc]
        by_cases hcc : (col : ℕ) < (c : ℕ)
        · rw [if_pos hcc]
        · rw [if_neg hcc]
          have hclt : (c : ℕ) < (col : ℕ) := by
            rcases Nat.lt_trichotomy (c : ℕ) (col : ℕ) with h | h | h
            · exact h
            · exact absurd (Fin.ext h) hc
            · exact absurd h hcc
          rw [hzc c hclt, zero_mul, sub_zero]
  · by_cases hr2 : r = col
    · rw [if_neg hr, if_pos hr2]
    · rw [if_neg hr, if_neg hr2, if_neg hr, mul_zero, sub_zero]

/-- The in-place update of the solution block performed by one
forward-elimination step coincides with `elimRowsM` at the multipliers
`geCoef`. -/
theorem geX2_elim {n m : ℕ} (A1 : Matrix (Fin n) (Fin n) ℚ)
    (X1 : Matrix (Fin n) (Fin m) ℚ) (col : Fin n) :
    (Matrix.of fun (r : Fin n) (c : Fin m) =>
      if (col : ℕ) < (r : ℕ) then
        if A1 r col = 0 then X1 r c
        else X1 r c - X1 col c * (A1 r col / A1 col col)
      else X1 r c) = elimRowsM X1 col (geCoef A1 col) := by
  funext r c
  simp only [Matrix.of_apply, elimRowsM, geCoef]
  by_cases hr : (col : ℕ) < (r : ℕ)
  · have hrne : r ≠ col := Fin.ne_of_val_ne (by omega)
    rw [if_pos hr, if_pos hr, if_neg hrne]
    by_cases h0 : A1 r col = 0
    · rw [if_pos h0, if_pos h0, mul_zero, sub_zero]
    · rw [if_neg h0, if_neg h0]
  · by_cases hr2 : r = col
    · rw [if_neg hr, if_pos hr2]
    · rw [if_neg hr, if_neg hr2, if_neg hr, mul_zero, sub_zero]

/-- Ghost invariant for the forward sweep of `MP_GaussElimination` after
the first `c` columns have been processed: the right-hand side is
untouched, the physical `A` and `X` are a common invertible row operation
`E` applied to the original data, and the processed columns are zero below
the diagonal. -/
def geInv {n m : ℕ} (A0 : Matrix (Fin n) (Fin n) ℚ)
    (B0 : Matrix (Fin n) (Fin m) ℚ) (c : ℕ) (s : GJState n m) : Prop :=
  s.B = B0 ∧
  ∃ E Einv : Matrix (Fin n) (Fin n) ℚ,
    s.A = E * A0 ∧ s.X = E * B0 ∧ E * Einv = 1 ∧ Einv * E = 1 ∧
    ∀ (j r : Fin n), (j : ℕ) < c → (j : ℕ) < (r : ℕ) → s.A r j = 0

theorem geInv_zero {n m : ℕ} (A : Matrix (Fin n) (Fin n) ℚ)
    (B : Matrix (Fin n) (Fin m) ℚ) :
    geInv A B 0 ⟨A, B, B, fun _ => false, []⟩ :=
  ⟨rfl, 1, 1, (Matrix.one_mul A).symm, (Matrix.one_mul B).symm,
    Matrix.one_mul 1, Matrix.one_mul 1,
    fun _ _ hj _ => absurd hj (Nat.not_lt_zero _)⟩

theorem geStep_inv {n m : ℕ} {A0 : Matrix (Fin n) (Fin n) ℚ}
    {B0 : Matrix (Fin n) (Fin m) ℚ} {s s2 : GJState n m} {col : Fin n}
    (hinv : geInv A0 B0 (col : ℕ) s) (h : geStep s col = some s2) :
    geInv A0 B0 ((col : ℕ) + 1) s2 := by
  obtain ⟨hB, E, Einv, hA, hX, hEE, hEiE, hzero⟩ := hinv
  simp only [geStep] at h
  split at h
  · cases h
  · next hpv =>
    cases h
    have hpge : (col : ℕ) ≤ ((gePivotRow s.A col : Fin n) : ℕ) :=
      gePivotRow_ge s.A col
    set A1 : Matrix (Fin n) (Fin n) ℚ :=
      swapRowsM s.A (gePivotRow s.A col) col with hA1def
    set X1 : Matrix (Fin n) (Fin m) ℚ :=
      swapRowsM s.X (gePivotRow s.A col) col with hX1def
    -- the swapped matrix keeps the processed zero columns
    have hz1 : ∀ (j r : Fin n), (j : ℕ) < (col : ℕ) → (j : ℕ) < (r : ℕ) →
        A1 r j = 0 := by
      intro j r hj hjr
      rw [hA1def, swapRowsM_apply]
      apply hzero j _ hj
      by_cases h1 : r = gePivotRow s.A col
      · rw [h1, Equiv.swap_apply_left]
        omega
      · by_cases h2 : r = col
        · rw [h2, Equiv.swap_apply_right]
          omega
        · rw [Equiv.swap_apply_of_ne_of_ne h1 h2]
          exact hjr
    have hzc : ∀ c : Fin n, (c : ℕ) < (col : ℕ) → A1 col c = 0 :=
      fun c hc => hz1 c col hc hc
    have hdiag : A1 col col ≠ 0 := by
      rw [hA1def, swapRowsM_apply, Equiv.swap_apply_right]
      exact hpv
    refine ⟨hB, elimRowsM (swapRowsM E (gePivotRow s.A col) col) col (geCoef A1 col),
      Einv * swapRowsM 1 (gePivotRow s.A col) col *
        elimRowsM 1 col (fun r => -(geCoef A1 col r)), ?_, ?_, ?_, ?_, ?_⟩
    · show (Matrix.of _ : Matrix (Fin n) (Fin n) ℚ) = _
      rw [geA2_elim A1 col hdiag hzc, ← elimRowsM_mul, ← swapRowsM_mul, ← hA]
    · show (Matrix.of _ : Matrix (Fin n) (Fin m) ℚ) = _
      rw [geX2_elim A1 X1 col, ← elimRowsM_mul, ← swapRowsM_mul, ← hX]
    · rw [swapRowsM_one_mul E, elimRowsM_one_mul]
      simp only [Matrix.mul_assoc]
      rw [← Matrix.mul_assoc E Einv, hEE, Matrix.one_mul,
        ← Matrix.mul_assoc (swapRowsM 1 (gePivotRow s.A col) col),
        swapRowsM_one_sq, Matrix.one_mul]
      exact elimRowsM_mul_neg col (geCoef A1 col)
    · rw [swapRowsM_one_mul E,
        elimRowsM_one_mul (swapRowsM 1 (gePivotRow s.A col) col * E) col]
      simp only [Matrix.mul_assoc]
      rw [← Matrix.mul_assoc (elimRowsM 1 col fun r => -(geCoef A1 col r)),
        elimRowsM_neg_mul, Matrix.one_mul,
        ← Matrix.mul_assoc (swapRowsM 1 (gePivotRow s.A col) col),
        swapRowsM_one_sq, Matrix.one_mul]
      exact hEiE
    · intro j r hj hjr
      show (Matrix.of _ : Matrix (Fin n) (Fin n) ℚ) r j = 0
      rw [geA2_elim A1 col hdiag hzc]
      simp only [elimRowsM, Matrix.of_apply, geCoef]
      by_cases hr2 : r = col
      · subst hr2
        rw [if_pos rfl]
        exact hzc j hjr
      · rw [if_neg hr2]
        rcases Nat.lt_or_ge (j : ℕ) (col : ℕ) with hjc | hjc
        · rw [hz1 j r hjc hjr, hzc j hjc, zero_mul, sub_zero]
        · have hjcol : j = col := Fin.ext (by omega)
          subst hjcol
          rw [if_pos hjr]
          by_cases h0 : A1 r j = 0
          · rw [if_pos h0, mul_zero, sub_zero]
            exact h0
          · rw [if_neg h0, mul_comm (A1 j j), div_mul_cancel₀ _ hdiag,
              sub_self]

theorem geForward_inv {n m : ℕ} {A0 : Matrix (Fin n) (Fin n) ℚ}
    {B0 : Matrix (Fin n) (Fin m) ℚ} :
    ∀ (fuel c : ℕ) (s t : GJState n m), geInv A0 B0 c s →
      geForward fuel c s = .ok t → geInv A0 B0 (c + fuel) t := by
  intro fuel
  induction fuel with
  | zero =>
    intro c s t hinv h
    cases h
    rw [Nat.add_zero]
    exact hinv
  | succ fuel ih =>
    intro c s t hinv h
    rw [geForward] at h
    split at h
    · next hcn =>
      cases hs : geStep s ⟨c, hcn⟩ with
      | none => rw [hs] at h; cases h
      | some s2 =>
        rw [hs] at h
        have hinv2 : geInv A0 B0 (c + 1) s2 := geStep_inv hinv hs
        have hres := ih (c + 1) s2 t hinv2 h
        have harith : c + 1 + fuel = c + (fuel + 1) := by omega
        rwa [harith] at hres
    · next hcn =>
      cases h
      obtain ⟨hB, E, Einv, hA, hX, hEE, hEiE, hzero⟩ := hinv
      exact ⟨hB, E, Einv, hA, hX, hEE, hEiE,
        fun j r _ hjr => hzero j r (lt_of_lt_of_le j.isLt (le_of_not_lt hcn)) hjr⟩

/-- Correctness of the back-substitution loop: if the rows at index `≥ k`
already satisfy their equations and the rows below `k` still carry the
forward-eliminated right-hand side, then running the loop from row `k - 1`
downward produces a full solution of the upper-triangular system. -/
theorem geBackAux_correct {n m : ℕ} (U : Matrix (Fin n) (Fin n) ℚ)
    (Xm : Matrix (Fin n) (Fin m) ℚ)
    (htri : ∀ r j : Fin n, (j : ℕ) < (r : ℕ) → U r j = 0)
    (hdiag : ∀ i : Fin n, U i i ≠ 0) :
    ∀ (k : ℕ) (X : Matrix (Fin n) (Fin m) ℚ),
      (∀ (j : Fin n), k ≤ (j : ℕ) → ∀ c, (∑ t, U j t * X t c) = Xm j c) →
      (∀ (j : Fin n), (j : ℕ) < k → ∀ c, X j c = Xm j c) →
      ∀ (j : Fin n) (c : Fin m),
        (∑ t, U j t * (geBackAux U k X) t c) = Xm j c := by
  intro k
  induction k with
  | zero =>
    intro X hsolved _ j c
    exact hsolved j (Nat.zero_le _) c
  | succ k ih =>
    intro X hsolved huntouched j c
    rw [geBackAux]
    apply ih
    · intro j hj c
      have hXt : ∀ t : Fin n, (t : ℕ) ≠ k →
          (Matrix.of fun (r : Fin n) (c : Fin m) =>
            if (r : ℕ) = k then
              (X r c - ∑ j : Fin n, if k < (j : ℕ) then U r j * X j c else 0) / U r r
            else X r c) t c = X t c := by
        intro t ht
        simp only [Matrix.of_apply, if_neg ht]
      by_cases hjk : (j : ℕ) = k
      · -- the newly written row now satisfies its equation
        have hXj : (Matrix.of fun (r : Fin n) (c : Fin m) =>
            if (r : ℕ) = k then
              (X r c - ∑ j : Fin n, if k < (j : ℕ) then U r j * X j c else 0) / U r r
            else X r c) j c =
            (X j c - ∑ t : Fin n, if k < (t : ℕ) then U j t * X t c else 0) / U j j := by
          simp only [Matrix.of_apply, if_pos hjk]
        have hsplit : ∀ t : Fin n, U j t *
            (Matrix.of fun (r : Fin n) (c : Fin m) =>
              if (r : ℕ) = k then
                (X r c - ∑ j : Fin n, if k < (j : ℕ) then U r j * X j c else 0) / U r r
              else X r c) t c =
            (if t = j then U j j *
              ((X j c - ∑ t : Fin n, if k < (t : ℕ) then U j t * X t c else 0) / U j j)
             else 0) +
            (if k < (t : ℕ) then U j t * X t c else 0) := by
          intro t
          by_cases htj : t = j
          · subst htj
            rw [if_pos rfl, if_neg (by omega), add_zero, hXj]
          · have htk : (t : ℕ) ≠ k := by
              intro he
              exact htj (Fin.ext (by omega))
            rw [if_neg htj, zero_add, hXt t htk]
            by_cases hkt : k < (t : ℕ)
            · rw [if_pos hkt]
            · rw [if_neg hkt]
              have hlt : (t : ℕ) < (j : ℕ) := by omega
              rw [htri j t hlt, zero_mul]
        have h1 : (∑ t, U j t *
            (Matrix.of fun (r : Fin n) (c : Fin m) =>
              if (r : ℕ) = k then
                (X r c - ∑ j : Fin n, if k < (j : ℕ) then U r j * X j c else 0) / U r r
              else X r c) t c) =
            (∑ t : Fin n, if t = j then U j j *
              ((X j c - ∑ t : Fin n, if k < (t : ℕ) then U j t * X t c else 0) / U j j)
             else 0) +
            ∑ t : Fin n, (if k < (t : ℕ) then U j t * X t c else 0) := by
          rw [← Finset.sum_add_distrib]
          exact Finset.sum_congr rfl fun t _ => hsplit t
        rw [h1, Finset.sum_ite_eq' Finset.univ j, if_pos (Finset.mem_univ j),
          mul_comm, div_mul_cancel₀ _ (hdiag j),
          huntouched j (by omega) c]
        ring1
      · -- rows strictly below the written one are untouched and stay solved
        have hsum : (∑ t, U j t *
            (Matrix.of fun (r : Fin n) (c : Fin m) =>
              if (r : ℕ) = k then
                (X r c - ∑ j : Fin n, if k < (j : ℕ) then U r j * X j c else 0) / U r r
              else X r c) t c) = ∑ t, U j t * X t c := by
          apply Finset.sum_congr rfl
          intro t _
          by_cases htk : (t : ℕ) = k
          · have hlt : (t : ℕ) < (j : ℕ) := by omega
            rw [htri j t hlt, zero_mul, zero_mul]
          · rw [hXt t htk]
        rw [hsum]
        exact hsolved j (by omega) c
    · intro j hj c
      simp only [Matrix.of_apply]
      rw [if_neg (by omega)]
      exact huntouched j (by omega) c

/-- Correctness of the full back-substitution phase on an upper-triangular
matrix with nonzero diagonal. -/
theorem geBackSub_correct {n m : ℕ} (U : Matrix (Fin n) (Fin n) ℚ)
    (Xm : Matrix (Fin n) (Fin m) ℚ)
    (htri : ∀ r j : Fin n, (j : ℕ) < (r : ℕ) → U r j = 0)
    (hdiag : ∀ i : Fin n, U i i ≠ 0) :
    U * geBackSub U Xm = Xm := by
  funext r c
  rw [Matrix.mul_apply]
  exact geBackAux_correct U Xm htri hdiag n Xm
    (fun j hj _ => absurd j.isLt (by omega))
    (fun _ _ _ => rfl) r c

theorem gaussElimination_solves {n m : ℕ}
    {A Ag : Matrix (Fin n) (Fin n) ℚ} {B X B2 : Matrix (Fin n) (Fin m) ℚ}
    (hdet : A.det ≠ 0)
    (h : MP_GaussElimination A B = .ok Ag X B2) :
    A * X = B := by
  unfold MP_GaussElimination at h
  dsimp only at h
  split at h
  · next h1 =>
    subst h1
    split at h
    · cases h
    · next hA00 =>
      cases h
      funext r c
      rw [Matrix.mul_apply, Fin.sum_univ_one]
      have hr : r = 0 := Subsingleton.elim r 0
      subst hr
      show A 0 0 * (B 0 c / A ⟨0, Nat.one_pos⟩ ⟨0, Nat.one_pos⟩) = B 0 c
      exact mul_div_cancel₀ _ hA00
  · cases hf : geForward (n - 1) 0 (⟨A, B, B, fun _ => false, []⟩ : GJState n m) with
    | error s => rw [hf] at h; cases h
    | ok s =>
      rw [hf] at h
      cases h
      obtain ⟨hB, E, Einv, hA, hX, hEE, hEiE, hzero⟩ :=
        geForward_inv (n - 1) 0 _ s (geInv_zero A B) hf
      have htri : ∀ r j : Fin n, (j : ℕ) < (r : ℕ) → s.A r j = 0 := by
        intro r j hjr
        refine hzero j r ?_ hjr
        have := r.isLt
        omega
      have hdetE : E.det ≠ 0 := by
        intro h0
        have hmul := congrArg Matrix.det hEE
        rw [Matrix.det_mul, h0, zero_mul, Matrix.det_one] at hmul
        exact zero_ne_one hmul
      have hdetU : (s.A).det ≠ 0 := by
        rw [hA, Matrix.det_mul]
        exact mul_ne_zero hdetE hdet
      have hdiagU : ∀ i : Fin n, s.A i i ≠ 0 := by
        have hblock : Matrix.BlockTriangular s.A id := fun i j hij => htri i j hij
        rw [Matrix.det_of_upperTriangular hblock] at hdetU
        intro i
        exact Finset.prod_ne_zero_iff.mp hdetU i (Finset.mem_univ i)
      have hback := geBackSub_correct s.A s.X htri hdiagU
      rw [hA, hX] at hback ⊢
      have h2 : E * (A * geBackSub (E * A) (E * B)) = E * B := by
        rw [← Matrix.mul_assoc]
        exact hback
      have h3 : Einv * (E * (A * geBackSub (E * A) (E * B))) = Einv * (E * B) := by
        rw [h2]
      simp only [← Matrix.mul_assoc, hEiE, Matrix.one_mul] at h3
      exact h3

/-- C2: `MP_GaussElimination` has the same I/O contract as `MP_GaussJordan`
(copy `B` into `X`, solve `A · X = B`, report singularity otherwise), and on
any invertible input on which both complete, the two solvers produce the
same solution block `X` — each solves the system exactly. -/
theorem gaussElimination_agrees {n m : ℕ}
    {A Ai Ag : Matrix (Fin n) (Fin n) ℚ}
    {B X1 B1 X2 B2 : Matrix (Fin n) (Fin m) ℚ}
    (hgj : MP_GaussJordan A B = .ok Ai X1 B1)
    (hge : MP_GaussElimination A B = .ok Ag X2 B2) :
    X1 = X2 ∧ A * X1 = B ∧ A * X2 = B := by
  obtain ⟨hAX1, hAAi, hAiA⟩ := gaussJordan_solves hgj
  have hdet : A.det ≠ 0 := by
    intro h0
    have hmul := congrArg Matrix.det hAAi
    rw [Matrix.det_mul, h0, zero_mul, Matrix.det_one] at hmul
    exact zero_ne_one hmul
  have hAX2 : A * X2 = B := gaussElimination_solves hdet hge
  refine ⟨?_, hAX1, hAX2⟩
  calc X1 = 1 * X1 := (Matrix.one_mul X1).symm
    _ = (Ai * A) * X1 := by rw [hAiA]
    _ = Ai * (A * X1) := Matrix.mul_assoc _ _ _
    _ = Ai * B := by rw [hAX1]
    _ = Ai * (A * X2) := by rw [hAX2]
    _ = (Ai * A) * X2 := (Matrix.mul_assoc _ _ _).symm
    _ = X2 := by rw [hAiA, Matrix.one_mul]

/-- Witness for C2: both solvers on the 1×1 system `4 · x = 8`. -/
theorem gaussElimination_agrees_witness :
    (MP_GaussJordan (Matrix.of fun _ _ : Fin 1 => (4 : ℚ))
        (Matrix.of fun _ _ : Fin 1 => (8 : ℚ)) =
      .ok (Matrix.of fun _ _ => (1 : ℚ) / 4) (Matrix.of fun _ _ => (2 : ℚ))
        (Matrix.of fun _ _ => (8 : ℚ))) ∧
    (MP_GaussElimination (Matrix.of fun _ _ : Fin 1 => (4 : ℚ))
        (Matrix.of fun _ _ : Fin 1 => (8 : ℚ)) =
      .ok (Matrix.of fun _ _ => (1 : ℚ) / 4) (Matrix.of fun _ _ => (2 : ℚ))
        (Matrix.of fun _ _ => (8 : ℚ))) ∧
    ((Matrix.of fun _ _ : Fin 1 => (2 : ℚ)) =
        (Matrix.of fun _ _ : Fin 1 => (2 : ℚ))) ∧
    ((Matrix.of fun _ _ : Fin 1 => (4 : ℚ)) *
        (Matrix.of fun _ _ : Fin 1 => (2 : ℚ)) =
      Matrix.of fun _ _ => (8 : ℚ)) := by
  have h1 : MP_GaussJordan (Matrix.of fun _ _ : Fin 1 => (4 : ℚ))
      (Matrix.of fun _ _ : Fin 1 => (8 : ℚ)) =
      .ok (Matrix.of fun _ _ => (1 : ℚ) / 4) (Matrix.of fun _ _ => (2 : ℚ))
        (Matrix.of fun _ _ => (8 : ℚ)) := by
    unfold MP_GaussJordan
    rw [dif_pos rfl, if_neg (by norm_num [Matrix.of_apply])]
    congr 1 <;> funext r c <;> norm_num [Matrix.of_apply]
  have h2 : MP_GaussElimination (Matrix.of fun _ _ : Fin 1 => (4 : ℚ))
      (Matrix.of fun _ _ : Fin 1 => (8 : ℚ)) =
      .ok (Matrix.of fun _ _ => (1 : ℚ) / 4) (Matrix.of fun _ _ => (2 : ℚ))
        (Matrix.of fun _ _ => (8 : ℚ)) := by
    unfold MP_GaussElimination
    rw [dif_pos rfl, if_neg (by norm_num [Matrix.of_apply])]
    congr 1 <;> funext r c <;> norm_num [Matrix.of_apply]
  have h3 := gaussElimination_agrees h1 h2
  exact ⟨h1, h2, h3.1, h3.2.1⟩

/-! ### Round trip of the quaternion conversions -/

theorem maxAccum_ge {K : Type*} [LinearOrderedField K] (rr xx yy zz : K) :
    rr ≤ maxAccum rr xx yy zz ∧ xx ≤ maxAccum rr xx yy zz ∧
    yy ≤ maxAccum rr xx yy zz ∧ zz ≤ maxAccum rr xx yy zz := by
  unfold maxAccum
  dsimp only
  split_ifs <;> refine ⟨?_, ?_, ?_, ?_⟩ <;> linarith

theorem maxAccum_cases {K : Type*} [LinearOrderedField K] (rr xx yy zz : K) :
    maxAccum rr xx yy zz = rr ∨ maxAccum rr xx yy zz = xx ∨
    maxAccum rr xx yy zz = yy ∨ maxAccum rr xx yy zz = zz := by
  unfold maxAccum
  dsimp only
  split_ifs <;> simp

/-- Clearing the divisions in a diagonal entry of the reconstructed
rotation matrix: the branch scalar `v` enters through `r4 = sqrt (v*4)`
once as `r4/4` (the quarter component) and three times as a denominator. -/
theorem quatDivDiag (v r4 a b c t e1 e2 e3 e4 : ℝ) (hv : v ≠ 0)
    (hr : r4 * r4 = v * 4)
    (hid : e2 * (a * a) + e3 * (b * b) + e4 * (c * c) =
      4 * v * t - e1 * (v * v)) :
    e1 * (r4 / 4 * (r4 / 4)) + e2 * (a / r4 * (a / r4)) +
      e3 * (b / r4 * (b / r4)) + e4 * (c / r4 * (c / r4)) = t := by
  have hr4 : r4 ≠ 0 := by
    intro h0
    rw [h0, zero_mul] at hr
    apply hv
    linarith
  have hdiv : ∀ x y : ℝ, x / r4 * (y / r4) = x * y / (v * 4) := by
    intro x y
    rw [div_mul_div_comm, hr]
  have hq4 : r4 / 4 * (r4 / 4) = v * 4 / 16 := by
    rw [div_mul_div_comm, hr]
    norm_num
  rw [hq4, hdiv, hdiv, hdiv]
  field_simp
  linear_combination (256 * v ^ 2 : ℝ) * hid

/-- Clearing the divisions in an off-diagonal entry of the reconstructed
rotation matrix. -/
theorem quatDivOff (v r4 p q u t e : ℝ) (hv : v ≠ 0)
    (hr : r4 * r4 = v * 4)
    (hid : 2 * (p * q) + e * (2 * (v * u)) = 4 * v * t) :
    2 * (p / r4 * (q / r4)) + e * (2 * (r4 / 4 * (u / r4))) = t := by
  have hr4 : r4 ≠ 0 := by
    intro h0
    rw [h0, zero_mul] at hr
    apply hv
    linarith
  have hdiv : ∀ x y : ℝ, x / r4 * (y / r4) = x * y / (v * 4) := by
    intro x y
    rw [div_mul_div_comm, hr]
  have hq4 : ∀ w : ℝ, r4 / 4 * (w / r4) = w / 4 := by
    intro w
    rw [div_mul_div_comm, mul_comm (4 : ℝ) r4, mul_div_mul_left _ _ hr4]
  rw [hdiv, hq4]
  field_simp
  linear_combination (4 : ℝ) * hid

/-- The scalar consequences of `Aᵀ · A = 1` and `det A = 1` used by the
round-trip proof: orthonormal columns, orthonormal rows, and the nine
cofactor identities `adjugate A = Aᵀ`. -/
def rotRelations (A : Matrix (Fin 3) (Fin 3) ℝ) : Prop :=
  (A 0 0 * A 0 0 + A 1 0 * A 1 0 + A 2 0 * A 2 0 = 1) ∧
  (A 0 1 * A 0 1 + A 1 1 * A 1 1 + A 2 1 * A 2 1 = 1) ∧
  (A 0 2 * A 0 2 + A 1 2 * A 1 2 + A 2 2 * A 2 2 = 1) ∧
  (A 0 0 * A 0 1 + A 1 0 * A 1 1 + A 2 0 * A 2 1 = 0) ∧
  (A 0 0 * A 0 2 + A 1 0 * A 1 2 + A 2 0 * A 2 2 = 0) ∧
  (A 0 1 * A 0 2 + A 1 1 * A 1 2 + A 2 1 * A 2 2 = 0) ∧
  (A 0 0 * A 0 0 + A 0 1 * A 0 1 + A 0 2 * A 0 2 = 1) ∧
  (A 1 0 * A 1 0 + A 1 1 * A 1 1 + A 1 2 * A 1 2 = 1) ∧
  (A 2 0 * A 2 0 + A 2 1 * A 2 1 + A 2 2 * A 2 2 = 1) ∧
  (A 0 0 * A 1 0 + A 0 1 * A 1 1 + A 0 2 * A 1 2 = 0) ∧
  (A 0 0 * A 2 0 + A 0 1 * A 2 1 + A 0 2 * A 2 2 = 0) ∧
  (A 1 0 * A 2 0 + A 1 1 * A 2 1 + A 1 2 * A 2 2 = 0) ∧
  (A 1 1 * A 2 2 - A 1 2 * A 2 1 = A 0 0) ∧
  (-(A 0 1 * A 2 2) + A 0 2 * A 2 1 = A 1 0) ∧
  (A 0 1 * A 1 2 - A 0 2 * A 1 1 = A 2 0) ∧
  (-(A 1 0 * A 2 2) + A 1 2 * A 2 0 = A 0 1) ∧
  (A 0 0 * A 2 2 - A 0 2 * A 2 0 = A 1 1) ∧
  (-(A 0 0 * A 1 2) + A 0 2 * A 1 0 = A 2 1) ∧
  (A 1 0 * A 2 1 - A 1 1 * A 2 0 = A 0 2) ∧
  (-(A 0 0 * A 2 1) + A 0 1 * A 2 0 = A 1 2) ∧
  (A 0 0 * A 1 1 - A 0 1 * A 1 0 = A 2 2)

theorem rotRelations_of (A : Matrix (Fin 3) (Fin 3) ℝ)
    (horth : A.transpose * A = 1) (hdet : A.det = 1) : rotRelations A := by
  have hAAt : A * A.transpose = 1 := Matrix.mul_eq_one_comm.mp horth
  have hadj : A.adjugate = A.transpose := by
    calc A.adjugate = 1 * A.adjugate := (Matrix.one_mul _).symm
      _ = A.transpose * A * A.adjugate := by rw [horth]
      _ = A.transpose * (A * A.adjugate) := Matrix.mul_assoc _ _ _
      _ = A.transpose := by rw [Matrix.mul_adjugate, hdet, one_smul, Matrix.mul_one]
  have hT : A.transpose =
      !![A 1 1 * A 2 2 - A 1 2 * A 2 1,
        -(A 0 1 * A 2 2) + A 0 2 * A 2 1,
        A 0 1 * A 1 2 - A 0 2 * A 1 1;
        -(A 1 0 * A 2 2) + A 1 2 * A 2 0,
        A 0 0 * A 2 2 - A 0 2 * A 2 0,
        -(A 0 0 * A 1 2) + A 0 2 * A 1 0;
        A 1 0 * A 2 1 - A 1 1 * A 2 0,
        -(A 0 0 * A 2 1) + A 0 1 * A 2 0,
        A 0 0 * A 1 1 - A 0 1 * A 1 0] := by
    rw [← hadj, Matrix.adjugate_fin_three]
  have hcol : ∀ j k : Fin 3,
      A 0 j * A 0 k + A 1 j * A 1 k + A 2 j * A 2 k =
        (1 : Matrix (Fin 3) (Fin 3) ℝ) j k := by
    intro j k
    have h := congrFun (congrFun horth j) k
    rw [Matrix.mul_apply, Fin.sum_univ_three] at h
    simpa [Matrix.transpose_apply] using h
  have hrow : ∀ i l : Fin 3,
      A i 0 * A l 0 + A i 1 * A l 1 + A i 2 * A l 2 =
        (1 : Matrix (Fin 3) (Fin 3) ℝ) i l := by
    intro i l
    have h := congrFun (congrFun hAAt i) l
    rw [Matrix.mul_apply, Fin.sum_univ_three] at h
    simpa [Matrix.transpose_apply] using h
  have hK : ∀ i j : Fin 3, A j i =
      (!![A 1 1 * A 2 2 - A 1 2 * A 2 1,
        -(A 0 1 * A 2 2) + A 0 2 * A 2 1,
        A 0 1 * A 1 2 - A 0 2 * A 1 1;
        -(A 1 0 * A 2 2) + A 1 2 * A 2 0,
        A 0 0 * A 2 2 - A 0 2 * A 2 0,
        -(A 0 0 * A 1 2) + A 0 2 * A 1 0;
        A 1 0 * A 2 1 - A 1 1 * A 2 0,
        -(A 0 0 * A 2 1) + A 0 1 * A 2 0,
        A 0 0 * A 1 1 - A 0 1 * A 1 0] : Matrix (Fin 3) (Fin 3) ℝ) i j := by
    intro i j
    have h := congrFun (congrFun hT i) j
    rw [Matrix.transpose_apply] at h
    exact h
  refine ⟨?_, ?_, ?_, ?_, ?_, ?_, ?_, ?_, ?_, ?_, ?_, ?_,
    ?_, ?_, ?_, ?_, ?_, ?_, ?_, ?_, ?_⟩
  · simpa [Matrix.one_apply] using hcol 0 0
  · simpa [Matrix.one_apply] using hcol 1 1
  · simpa [Matrix.one_apply] using hcol 2 2
  · simpa [Matrix.one_apply] using hcol 0 1
  · simpa [Matrix.one_apply] using hcol 0 2
  · simpa [Matrix.one_apply] using hcol 1 2
  · simpa [Matrix.one_apply] using hrow 0 0
  · simpa [Matrix.one_apply] using hrow 1 1
  · simpa [Matrix.one_apply] using hrow 2 2
  · simpa [Matrix.one_apply] using hrow 0 1
  · simpa [Matrix.one_apply] using hrow 0 2
  · simpa [Matrix.one_apply] using hrow 1 2
  · exact (hK 0 0).symm
  · exact (hK 0 1).symm
  · exact (hK 0 2).symm
  · exact (hK 1 0).symm
  · exact (hK 1 1).symm
  · exact (hK 1 2).symm
  · exact (hK 2 0).symm
  · exact (hK 2 1).symm
  · exact (hK 2 2).symm

theorem roundTrip_rr (A : Matrix (Fin 3) (Fin 3) ℝ) (hrel : rotRelations A)
    (hv : 1 ≤ quatRR A) :
    MP_quaternionToMatrix3 Real.sqrt (mtqRR Real.sqrt A) = A := by
  obtain ⟨hc1, hc2, hc3, hc4, hc5, hc6, hr1, hr2, hr3, hr4, hr5, hr6,
    hk1, hk2, hk3, hk4, hk5, hk6, hk7, hk8, hk9⟩ := hrel
  have hvA : quatRR A = 1 + A 0 0 + A 1 1 + A 2 2 := rfl
  set v : ℝ := quatRR A with hvdef
  have hv40 : (0 : ℝ) < v * 4 := by linarith
  have hvne : v ≠ 0 := by
    intro h0
    rw [h0] at hv
    linarith
  set r4 : ℝ := Real.sqrt (v * 4) with hr4def
  have hr4sq : r4 * r4 = v * 4 := Real.mul_self_sqrt (le_of_lt hv40)
  have hq : mtqRR Real.sqrt A =
      ⟨(A 2 1 - A 1 2) / r4, (A 0 2 - A 2 0) / r4, (A 1 0 - A 0 1) / r4,
        r4 / 4⟩ := rfl
  have hS : (A 2 1 - A 1 2) * (A 2 1 - A 1 2) +
      (A 0 2 - A 2 0) * (A 0 2 - A 2 0) +
      (A 1 0 - A 0 1) * (A 1 0 - A 0 1) = v * 4 - v * v := by
    rw [hvA]
    linear_combination hc1 + hc2 + hc3 + 2 * hk1 + 2 * hk5 + 2 * hk9
  have hnorm : quatNorm2 (mtqRR Real.sqrt A) = 1 := by
    rw [hq]
    show (A 2 1 - A 1 2) / r4 * ((A 2 1 - A 1 2) / r4) +
        (A 0 2 - A 2 0) / r4 * ((A 0 2 - A 2 0) / r4) +
        (A 1 0 - A 0 1) / r4 * ((A 1 0 - A 0 1) / r4) + r4 / 4 * (r4 / 4) = 1
    rw [div_mul_div_comm, div_mul_div_comm, div_mul_div_comm, div_mul_div_comm,
      hr4sq, div_add_div_same, div_add_div_same, hS]
    field_simp
    ring1
  have hnormalize : quatNormalize Real.sqrt (mtqRR Real.sqrt A) =
      mtqRR Real.sqrt A := by
    simp only [quatNormalize]
    rw [hnorm, Real.sqrt_one]
    rw [if_neg (by norm_num : ¬ (1 : ℝ) < 1 / 1000000)]
    ext <;> exact div_one _
  have hE00 : r4 / 4 * (r4 / 4) +
      (A 2 1 - A 1 2) / r4 * ((A 2 1 - A 1 2) / r4) -
      (A 0 2 - A 2 0) / r4 * ((A 0 2 - A 2 0) / r4) -
      (A 1 0 - A 0 1) / r4 * ((A 1 0 - A 0 1) / r4) = A 0 0 := by
    linear_combination quatDivDiag v r4 (A 2 1 - A 1 2) (A 0 2 - A 2 0)
      (A 1 0 - A 0 1) (A 0 0) 1 1 (-1) (-1) hvne hr4sq
      (by rw [hvA]
          linear_combination (-1 : ℝ) * hc1 + hc2 + hc3 - 2 * hr1 + 2 * hk1 -
            2 * hk5 - 2 * hk9)
  have hE01 : 2 * ((A 2 1 - A 1 2) / r4) * ((A 0 2 - A 2 0) / r4) -
      2 * (r4 / 4) * ((A 1 0 - A 0 1) / r4) = A 0 1 := by
    linear_combination quatDivOff v r4 (A 2 1 - A 1 2) (A 0 2 - A 2 0)
      (A 1 0 - A 0 1) (A 0 1) (-1) hvne hr4sq
      (by rw [hvA]
          linear_combination (-2 : ℝ) * hc4 - 2 * hr4 + 2 * hk2 + 2 * hk4)
  have hE02 : 2 * ((A 2 1 - A 1 2) / r4) * ((A 1 0 - A 0 1) / r4) +
      2 * (r4 / 4) * ((A 0 2 - A 2 0) / r4) = A 0 2 := by
    linear_combination quatDivOff v r4 (A 2 1 - A 1 2) (A 1 0 - A 0 1)
      (A 0 2 - A 2 0) (A 0 2) 1 hvne hr4sq
      (by rw [hvA]
          linear_combination (-2 : ℝ) * hc5 - 2 * hr5 + 2 * hk3 + 2 * hk7)
  have hE10 : 2 * ((A 2 1 - A 1 2) / r4) * ((A 0 2 - A 2 0) / r4) +
      2 * (r4 / 4) * ((A 1 0 - A 0 1) / r4) = A 1 0 := by
    linear_combination quatDivOff v r4 (A 2 1 - A 1 2) (A 0 2 - A 2 0)
      (A 1 0 - A 0 1) (A 1 0) 1 hvne hr4sq
      (by rw [hvA]
          linear_combination (-2 : ℝ) * hc4 - 2 * hr4 + 2 * hk2 + 2 * hk4)
  have hE11 : r4 / 4 * (r4 / 4) -
      (A 2 1 - A 1 2) / r4 * ((A 2 1 - A 1 2) / r4) +
      (A 0 2 - A 2 0) / r4 * ((A 0 2 - A 2 0) / r4) -
      (A 1 0 - A 0 1) / r4 * ((A 1 0 - A 0 1) / r4) = A 1 1 := by
    linear_combination quatDivDiag v r4 (A 2 1 - A 1 2) (A 0 2 - A 2 0)
      (A 1 0 - A 0 1) (A 1 1) 1 (-1) 1 (-1) hvne hr4sq
      (by rw [hvA]
          linear_combination hc1 - hc2 + hc3 - 2 * hr2 - 2 * hk1 + 2 * hk5 -
            2 * hk9)
  have hE12 : 2 * ((A 0 2 - A 2 0) / r4) * ((A 1 0 - A 0 1) / r4) -
      2 * (r4 / 4) * ((A 2 1 - A 1 2) / r4) = A 1 2 := by
    linear_combination quatDivOff v r4 (A 0 2 - A 2 0) (A 1 0 - A 0 1)
      (A 2 1 - A 1 2) (A 1 2) (-1) hvne hr4sq
      (by rw [hvA]
          linear_combination (-2 : ℝ) * hc6 - 2 * hr6 + 2 * hk6 + 2 * hk8)
  have hE20 : 2 * ((A 2 1 - A 1 2) / r4) * ((A 1 0 - A 0 1) / r4) -
      2 * (r4 / 4) * ((A 0 2 - A 2 0) / r4) = A 2 0 := by
    linear_combination quatDivOff v r4 (A 2 1 - A 1 2) (A 1 0 - A 0 1)
      (A 0 2 - A 2 0) (A 2 0) (-1) hvne hr4sq
      (by rw [hvA]
          linear_combination (-2 : ℝ) * hc5 - 2 * hr5 + 2 * hk3 + 2 * hk7)
  have hE21 : 2 * ((A 0 2 - A 2 0) / r4) * ((A 1 0 - A 0 1) / r4) +
      2 * (r4 / 4) * ((A 2 1 - A 1 2) / r4) = A 2 1 := by
    linear_combination quatDivOff v r4 (A 0 2 - A 2 0) (A 1 0 - A 0 1)
      (A 2 1 - A 1 2) (A 2 1) 1 hvne hr4sq
      (by rw [hvA]
          linear_combination (-2 : ℝ) * hc6 - 2 * hr6 + 2 * hk6 + 2 * hk8)
  have hE22 : r4 / 4 * (r4 / 4) -
      (A 2 1 - A 1 2) / r4 * ((A 2 1 - A 1 2) / r4) -
      (A 0 2 - A 2 0) / r4 * ((A 0 2 - A 2 0) / r4) +
      (A 1 0 - A 0 1) / r4 * ((A 1 0 - A 0 1) / r4) = A 2 2 := by
    linear_combination quatDivDiag v r4 (A 2 1 - A 1 2) (A 0 2 - A 2 0)
      (A 1 0 - A 0 1) (A 2 2) 1 (-1) (-1) 1 hvne hr4sq
      (by rw [hvA]
          linear_combination (-1 : ℝ) * hc1 - hc2 - 3 * hc3 + 2 * hr1 +
            2 * hr2 - 2 * hk1 - 2 * hk5 + 2 * hk9)
  simp only [MP_quaternionToMatrix3]
  rw [hnormalize, hq]
  funext i j
  fin_cases i <;> fin_cases j
  · exact hE00
  · exact hE01
  · exact hE02
  · exact hE10
  · exact hE11
  · exact hE12
  · exact hE20
  · exact hE21
  · exact hE22

/-- Clearing the divisions in the squared norm of a branch quaternion. -/
theorem quatDivNorm (v r4 a b c : ℝ) (hv : v ≠ 0) (hr : r4 * r4 = v * 4)
    (hS : a * a + b * b + c * c = v * 4 - v * v) :
    r4 / 4 * (r4 / 4) + a / r4 * (a / r4) + b / r4 * (b / r4) +
      c / r4 * (c / r4) = 1 := by
  have hr4 : r4 ≠ 0 := by
    intro h0
    rw [h0, zero_mul] at hr
    apply hv
    linarith
  have hdiv : ∀ x y : ℝ, x / r4 * (y / r4) = x * y / (v * 4) := by
    intro x y
    rw [div_mul_div_comm, hr]
  have hq4 : r4 / 4 * (r4 / 4) = v * 4 / 16 := by
    rw [div_mul_div_comm, hr]
    norm_num
  rw [hq4, hdiv, hdiv, hdiv]
  field_simp
  linear_combination (256 * v ^ 2 : ℝ) * hS

theorem roundTrip_xx (A : Matrix (Fin 3) (Fin 3) ℝ) (hrel : rotRelations A)
    (hv : 1 ≤ quatXX A) :
    MP_quaternionToMatrix3 Real.sqrt (mtqXX Real.sqrt A) = A := by
  obtain ⟨hc1, hc2, hc3, hc4, hc5, hc6, hr1, hr2, hr3, hr4, hr5, hr6,
    hk1, hk2, hk3, hk4, hk5, hk6, hk7, hk8, hk9⟩ := hrel
  have hvA : quatXX A = 1 + A 0 0 - A 1 1 - A 2 2 := rfl
  set v : ℝ := quatXX A with hvdef
  have hv40 : (0 : ℝ) < v * 4 := by linarith
  have hvne : v ≠ 0 := by
    intro h0
    rw [h0] at hv
    linarith
  set r4 : ℝ := Real.sqrt (v * 4) with hr4def
  have hr4sq : r4 * r4 = v * 4 := Real.mul_self_sqrt (le_of_lt hv40)
  have hq : mtqXX Real.sqrt A =
      ⟨r4 / 4, (A 1 0 + A 0 1) / r4, (A 2 0 + A 0 2) / r4,
        (A 2 1 - A 1 2) / r4⟩ := rfl
  have hS : (A 1 0 + A 0 1) * (A 1 0 + A 0 1) +
      (A 2 0 + A 0 2) * (A 2 0 + A 0 2) +
      (A 2 1 - A 1 2) * (A 2 1 - A 1 2) = v * 4 - v * v := by
    rw [hvA]
    linear_combination hc1 + hc2 + hc3 + 2 * hk1 - 2 * hk5 - 2 * hk9
  have hnorm : quatNorm2 (mtqXX Real.sqrt A) = 1 := by
    rw [hq]
    show r4 / 4 * (r4 / 4) + (A 1 0 + A 0 1) / r4 * ((A 1 0 + A 0 1) / r4) +
        (A 2 0 + A 0 2) / r4 * ((A 2 0 + A 0 2) / r4) +
        (A 2 1 - A 1 2) / r4 * ((A 2 1 - A 1 2) / r4) = 1
    exact quatDivNorm v r4 (A 1 0 + A 0 1) (A 2 0 + A 0 2) (A 2 1 - A 1 2)
      hvne hr4sq hS
  have hnormalize : quatNormalize Real.sqrt (mtqXX Real.sqrt A) =
      mtqXX Real.sqrt A := by
    simp only [quatNormalize]
    rw [hnorm, Real.sqrt_one]
    rw [if_neg (by norm_num : ¬ (1 : ℝ) < 1 / 1000000)]
    ext <;> exact div_one _
  have hE00 : (A 2 1 - A 1 2) / r4 * ((A 2 1 - A 1 2) / r4) +
      r4 / 4 * (r4 / 4) -
      (A 1 0 + A 0 1) / r4 * ((A 1 0 + A 0 1) / r4) -
      (A 2 0 + A 0 2) / r4 * ((A 2 0 + A 0 2) / r4) = A 0 0 := by
    linear_combination quatDivDiag v r4 (A 2 1 - A 1 2) (A 1 0 + A 0 1)
      (A 2 0 + A 0 2) (A 0 0) 1 1 (-1) (-1) hvne hr4sq
      (by rw [hvA]
          linear_combination (-1 : ℝ) * hc1 + hc2 + hc3 - 2 * hr1 + 2 * hk1 +
            2 * hk5 + 2 * hk9)
  have hE01 : 2 * (r4 / 4) * ((A 1 0 + A 0 1) / r4) -
      2 * ((A 2 1 - A 1 2) / r4) * ((A 2 0 + A 0 2) / r4) = A 0 1 := by
    linear_combination quatDivOff v r4 (A 1 2 - A 2 1) (A 2 0 + A 0 2)
      (A 1 0 + A 0 1) (A 0 1) 1 hvne hr4sq
      (by rw [hvA]
          linear_combination (-2 : ℝ) * hc4 + 2 * hr4 - 2 * hk2 + 2 * hk4)
  have hE02 : 2 * (r4 / 4) * ((A 2 0 + A 0 2) / r4) +
      2 * ((A 2 1 - A 1 2) / r4) * ((A 1 0 + A 0 1) / r4) = A 0 2 := by
    linear_combination quatDivOff v r4 (A 2 1 - A 1 2) (A 1 0 + A 0 1)
      (A 2 0 + A 0 2) (A 0 2) 1 hvne hr4sq
      (by rw [hvA]
          linear_combination (-2 : ℝ) * hc5 + 2 * hr5 - 2 * hk3 + 2 * hk7)
  have hE10 : 2 * (r4 / 4) * ((A 1 0 + A 0 1) / r4) +
      2 * ((A 2 1 - A 1 2) / r4) * ((A 2 0 + A 0 2) / r4) = A 1 0 := by
    linear_combination quatDivOff v r4 (A 2 1 - A 1 2) (A 2 0 + A 0 2)
      (A 1 0 + A 0 1) (A 1 0) 1 hvne hr4sq
      (by rw [hvA]
          linear_combination (2 : ℝ) * hc4 - 2 * hr4 + 2 * hk2 - 2 * hk4)
  have hE11 : (A 2 1 - A 1 2) / r4 * ((A 2 1 - A 1 2) / r4) -
      r4 / 4 * (r4 / 4) +
      (A 1 0 + A 0 1) / r4 * ((A 1 0 + A 0 1) / r4) -
      (A 2 0 + A 0 2) / r4 * ((A 2 0 + A 0 2) / r4) = A 1 1 := by
    linear_combination quatDivDiag v r4 (A 2 1 - A 1 2) (A 1 0 + A 0 1)
      (A 2 0 + A 0 2) (A 1 1) (-1) 1 1 (-1) hvne hr4sq
      (by rw [hvA]
          linear_combination (-1 : ℝ) * hc1 + hc2 - hc3 + 2 * hr2 + 2 * hk1 +
            2 * hk5 - 2 * hk9)
  have hE12 : 2 * ((A 1 0 + A 0 1) / r4) * ((A 2 0 + A 0 2) / r4) -
      2 * ((A 2 1 - A 1 2) / r4) * (r4 / 4) = A 1 2 := by
    linear_combination quatDivOff v r4 (A 1 0 + A 0 1) (A 2 0 + A 0 2)
      (A 2 1 - A 1 2) (A 1 2) (-1) hvne hr4sq
      (by rw [hvA]
          linear_combination (2 : ℝ) * hc6 + 2 * hr6 + 2 * hk6 + 2 * hk8)
  have hE20 : 2 * (r4 / 4) * ((A 2 0 + A 0 2) / r4) -
      2 * ((A 2 1 - A 1 2) / r4) * ((A 1 0 + A 0 1) / r4) = A 2 0 := by
    linear_combination quatDivOff v r4 (A 1 2 - A 2 1) (A 1 0 + A 0 1)
      (A 2 0 + A 0 2) (A 2 0) 1 hvne hr4sq
      (by rw [hvA]
          linear_combination (2 : ℝ) * hc5 - 2 * hr5 + 2 * hk3 - 2 * hk7)
  have hE21 : 2 * ((A 1 0 + A 0 1) / r4) * ((A 2 0 + A 0 2) / r4) +
      2 * ((A 2 1 - A 1 2) / r4) * (r4 / 4) = A 2 1 := by
    linear_combination quatDivOff v r4 (A 1 0 + A 0 1) (A 2 0 + A 0 2)
      (A 2 1 - A 1 2) (A 2 1) 1 hvne hr4sq
      (by rw [hvA]
          linear_combination (2 : ℝ) * hc6 + 2 * hr6 + 2 * hk6 + 2 * hk8)
  have hE22 : (A 2 1 - A 1 2) / r4 * ((A 2 1 - A 1 2) / r4) -
      r4 / 4 * (r4 / 4) -
      (A 1 0 + A 0 1) / r4 * ((A 1 0 + A 0 1) / r4) +
      (A 2 0 + A 0 2) / r4 * ((A 2 0 + A 0 2) / r4) = A 2 2 := by
    linear_combination quatDivDiag v r4 (A 2 1 - A 1 2) (A 1 0 + A 0 1)
      (A 2 0 + A 0 2) (A 2 2) (-1) 1 (-1) 1 hvne hr4sq
      (by rw [hvA]
          linear_combination hc1 + hc2 + 3 * hc3 - 2 * hr1 - 2 * hr2 +
            2 * hk1 - 2 * hk5 + 2 * hk9)
  simp only [MP_quaternionToMatrix3]
  rw [hnormalize, hq]
  funext i j
  fin_cases i <;> fin_cases j
  · exact hE00
  · exact hE01
  · exact hE02
  · exact hE10
  · exact hE11
  · exact hE12
  · exact hE20
  · exact hE21
  · exact hE22

theorem roundTrip_yy (A : Matrix (Fin 3) (Fin 3) ℝ) (hrel : rotRelations A)
    (hv : 1 ≤ quatYY A) :
    MP_quaternionToMatrix3 Real.sqrt (mtqYY Real.sqrt A) = A := by
  obtain ⟨hc1, hc2, hc3, hc4, hc5, hc6, hr1, hr2, hr3, hr4, hr5, hr6,
    hk1, hk2, hk3, hk4, hk5, hk6, hk7, hk8, hk9⟩ := hrel
  have hvA : quatYY A = 1 - A 0 0 + A 1 1 - A 2 2 := rfl
  set v : ℝ := quatYY A with hvdef
  have hv40 : (0 : ℝ) < v * 4 := by linarith
  have hvne : v ≠ 0 := by
    intro h0
    rw [h0] at hv
    linarith
  set r4 : ℝ := Real.sqrt (v * 4) with hr4def
  have hr4sq : r4 * r4 = v * 4 := Real.mul_self_sqrt (le_of_lt hv40)
  have hq : mtqYY Real.sqrt A =
      ⟨(A 1 0 + A 0 1) / r4, r4 / 4, (A 2 1 + A 1 2) / r4,
        (A 0 2 - A 2 0) / r4⟩ := rfl
  have hS : (A 1 0 + A 0 1) * (A 1 0 + A 0 1) +
      (A 2 1 + A 1 2) * (A 2 1 + A 1 2) +
      (A 0 2 - A 2 0) * (A 0 2 - A 2 0) = v * 4 - v * v := by
    rw [hvA]
    linear_combination hc1 + hc2 + hc3 - 2 * hk1 + 2 * hk5 - 2 * hk9
  have hnorm : quatNorm2 (mtqYY Real.sqrt A) = 1 := by
    rw [hq]
    show (A 1 0 + A 0 1) / r4 * ((A 1 0 + A 0 1) / r4) + r4 / 4 * (r4 / 4) +
        (A 2 1 + A 1 2) / r4 * ((A 2 1 + A 1 2) / r4) +
        (A 0 2 - A 2 0) / r4 * ((A 0 2 - A 2 0) / r4) = 1
    linear_combination quatDivNorm v r4 (A 1 0 + A 0 1) (A 2 1 + A 1 2)
      (A 0 2 - A 2 0) hvne hr4sq hS
  have hnormalize : quatNormalize Real.sqrt (mtqYY Real.sqrt A) =
      mtqYY Real.sqrt A := by
    simp only [quatNormalize]
    rw [hnorm, Real.sqrt_one]
    rw [if_neg (by norm_num : ¬ (1 : ℝ) < 1 / 1000000)]
    ext <;> exact div_one _
  have hE00 : (A 0 2 - A 2 0) / r4 * ((A 0 2 - A 2 0) / r4) +
      (A 1 0 + A 0 1) / r4 * ((A 1 0 + A 0 1) / r4) -
      r4 / 4 * (r4 / 4) -
      (A 2 1 + A 1 2) / r4 * ((A 2 1 + A 1 2) / r4) = A 0 0 := by
    linear_combination quatDivDiag v r4 (A 0 2 - A 2 0) (A 1 0 + A 0 1)
      (A 2 1 + A 1 2) (A 0 0) (-1) 1 1 (-1) hvne hr4sq
      (by rw [hvA]
          linear_combination hc1 - hc2 - hc3 + 2 * hr1 + 2 * hk1 + 2 * hk5 -
            2 * hk9)
  have hE01 : 2 * ((A 1 0 + A 0 1) / r4) * (r4 / 4) -
      2 * ((A 0 2 - A 2 0) / r4) * ((A 2 1 + A 1 2) / r4) = A 0 1 := by
    linear_combination quatDivOff v r4 (A 2 0 - A 0 2) (A 2 1 + A 1 2)
      (A 1 0 + A 0 1) (A 0 1) 1 hvne hr4sq
      (by rw [hvA]
          linear_combination (2 : ℝ) * hc4 - 2 * hr4 - 2 * hk2 + 2 * hk4)
  have hE02 : 2 * ((A 1 0 + A 0 1) / r4) * ((A 2 1 + A 1 2) / r4) +
      2 * ((A 0 2 - A 2 0) / r4) * (r4 / 4) = A 0 2 := by
    linear_combination quatDivOff v r4 (A 1 0 + A 0 1) (A 2 1 + A 1 2)
      (A 0 2 - A 2 0) (A 0 2) 1 hvne hr4sq
      (by rw [hvA]
          linear_combination (2 : ℝ) * hc5 + 2 * hr5 + 2 * hk3 + 2 * hk7)
  have hE10 : 2 * ((A 1 0 + A 0 1) / r4) * (r4 / 4) +
      2 * ((A 0 2 - A 2 0) / r4) * ((A 2 1 + A 1 2) / r4) = A 1 0 := by
    linear_combination quatDivOff v r4 (A 0 2 - A 2 0) (A 2 1 + A 1 2)
      (A 1 0 + A 0 1) (A 1 0) 1 hvne hr4sq
      (by rw [hvA]
          linear_combination (-2 : ℝ) * hc4 + 2 * hr4 + 2 * hk2 - 2 * hk4)
  have hE11 : (A 0 2 - A 2 0) / r4 * ((A 0 2 - A 2 0) / r4) -
      (A 1 0 + A 0 1) / r4 * ((A 1 0 + A 0 1) / r4) +
      r4 / 4 * (r4 / 4) -
      (A 2 1 + A 1 2) / r4 * ((A 2 1 + A 1 2) / r4) = A 1 1 := by
    linear_combination quatDivDiag v r4 (A 0 2 - A 2 0) (A 1 0 + A 0 1)
      (A 2 1 + A 1 2) (A 1 1) 1 1 (-1) (-1) hvne hr4sq
      (by rw [hvA]
          linear_combination hc1 - hc2 + hc3 - 2 * hr2 + 2 * hk1 + 2 * hk5 +
            2 * hk9)
  have hE12 : 2 * (r4 / 4) * ((A 2 1 + A 1 2) / r4) -
      2 * ((A 0 2 - A 2 0) / r4) * ((A 1 0 + A 0 1) / r4) = A 1 2 := by
    linear_combination quatDivOff v r4 (A 2 0 - A 0 2) (A 1 0 + A 0 1)
      (A 2 1 + A 1 2) (A 1 2) 1 hvne hr4sq
      (by rw [hvA]
          linear_combination (-2 : ℝ) * hc6 + 2 * hr6 - 2 * hk6 + 2 * hk8)
  have hE20 : 2 * ((A 1 0 + A 0 1) / r4) * ((A 2 1 + A 1 2) / r4) -
      2 * ((A 0 2 - A 2 0) / r4) * (r4 / 4) = A 2 0 := by
    linear_combination quatDivOff v r4 (A 1 0 + A 0 1) (A 2 1 + A 1 2)
      (A 0 2 - A 2 0) (A 2 0) (-1) hvne hr4sq
      (by rw [hvA]
          linear_combination (2 : ℝ) * hc5 + 2 * hr5 + 2 * hk3 + 2 * hk7)
  have hE21 : 2 * (r4 / 4) * ((A 2 1 + A 1 2) / r4) +
      2 * ((A 0 2 - A 2 0) / r4) * ((A 1 0 + A 0 1) / r4) = A 2 1 := by
    linear_combination quatDivOff v r4 (A 0 2 - A 2 0) (A 1 0 + A 0 1)
      (A 2 1 + A 1 2) (A 2 1) 1 hvne hr4sq
      (by rw [hvA]
          linear_combination (2 : ℝ) * hc6 - 2 * hr6 + 2 * hk6 - 2 * hk8)
  have hE22 : (A 0 2 - A 2 0) / r4 * ((A 0 2 - A 2 0) / r4) -
      (A 1 0 + A 0 1) / r4 * ((A 1 0 + A 0 1) / r4) -
      r4 / 4 * (r4 / 4) +
      (A 2 1 + A 1 2) / r4 * ((A 2 1 + A 1 2) / r4) = A 2 2 := by
    linear_combination quatDivDiag v r4 (A 0 2 - A 2 0) (A 1 0 + A 0 1)
      (A 2 1 + A 1 2) (A 2 2) (-1) 1 (-1) 1 hvne hr4sq
      (by rw [hvA]
          linear_combination hc1 + hc2 + 3 * hc3 - 2 * hr1 - 2 * hr2 -
            2 * hk1 + 2 * hk5 + 2 * hk9)
  simp only [MP_quaternionToMatrix3]
  rw [hnormalize, hq]
  funext i j
  fin_cases i <;> fin_cases j
  · exact hE00
  · exact hE01
  · exact hE02
  · exact hE10
  · exact hE11
  · exact hE12
  · exact hE20
  · exact hE21
  · exact hE22

theorem roundTrip_zz (A : Matrix (Fin 3) (Fin 3) ℝ) (hrel : rotRelations A)
    (hv : 1 ≤ quatZZ A) :
    MP_quaternionToMatrix3 Real.sqrt (mtqZZ Real.sqrt A) = A := by
  obtain ⟨hc1, hc2, hc3, hc4, hc5, hc6, hr1, hr2, hr3, hr4, hr5, hr6,
    hk1, hk2, hk3, hk4, hk5, hk6, hk7, hk8, hk9⟩ := hrel
  have hvA : quatZZ A = 1 - A 0 0 - A 1 1 + A 2 2 := rfl
  set v : ℝ := quatZZ A with hvdef
  have hv40 : (0 : ℝ) < v * 4 := by linarith
  have hvne : v ≠ 0 := by
    intro h0
    rw [h0] at hv
    linarith
  set r4 : ℝ := Real.sqrt (v * 4) with hr4def
  have hr4sq : r4 * r4 = v * 4 := Real.mul_self_sqrt (le_of_lt hv40)
  have hq : mtqZZ Real.sqrt A =
      ⟨(A 2 0 + A 0 2) / r4, (A 2 1 + A 1 2) / r4, r4 / 4,
        (A 1 0 - A 0 1) / r4⟩ := rfl
  have hS : (A 2 0 + A 0 2) * (A 2 0 + A 0 2) +
      (A 2 1 + A 1 2) * (A 2 1 + A 1 2) +
      (A 1 0 - A 0 1) * (A 1 0 - A 0 1) = v * 4 - v * v := by
    rw [hvA]
    linear_combination hc1 + hc2 + hc3 - 2 * hk1 - 2 * hk5 + 2 * hk9
  have hnorm : quatNorm2 (mtqZZ Real.sqrt A) = 1 := by
    rw [hq]
    show (A 2 0 + A 0 2) / r4 * ((A 2 0 + A 0 2) / r4) +
        (A 2 1 + A 1 2) / r4 * ((A 2 1 + A 1 2) / r4) + r4 / 4 * (r4 / 4) +
        (A 1 0 - A 0 1) / r4 * ((A 1 0 - A 0 1) / r4) = 1
    linear_combination quatDivNorm v r4 (A 2 0 + A 0 2) (A 2 1 + A 1 2)
      (A 1 0 - A 0 1) hvne hr4sq hS
  have hnormalize : quatNormalize Real.sqrt (mtqZZ Real.sqrt A) =
      mtqZZ Real.sqrt A := by
    simp only [quatNormalize]
    rw [hnorm, Real.sqrt_one]
    rw [if_neg (by norm_num : ¬ (1 : ℝ) < 1 / 1000000)]
    ext <;> exact div_one _
  have hE00 : (A 1 0 - A 0 1) / r4 * ((A 1 0 - A 0 1) / r4) +
      (A 2 0 + A 0 2) / r4 * ((A 2 0 + A 0 2) / r4) -
      (A 2 1 + A 1 2) / r4 * ((A 2 1 + A 1 2) / r4) -
      r4 / 4 * (r4 / 4) = A 0 0 := by
    linear_combination quatDivDiag v r4 (A 1 0 - A 0 1) (A 2 0 + A 0 2)
      (A 2 1 + A 1 2) (A 0 0) (-1) 1 1 (-1) hvne hr4sq
      (by rw [hvA]
          linear_combination hc1 - hc2 - hc3 + 2 * hr1 + 2 * hk1 - 2 * hk5 +
            2 * hk9)
  have hE01 : 2 * ((A 2 0 + A 0 2) / r4) * ((A 2 1 + A 1 2) / r4) -
      2 * ((A 1 0 - A 0 1) / r4) * (r4 / 4) = A 0 1 := by
    linear_combination quatDivOff v r4 (A 2 0 + A 0 2) (A 2 1 + A 1 2)
      (A 1 0 - A 0 1) (A 0 1) (-1) hvne hr4sq
      (by rw [hvA]
          linear_combination (2 : ℝ) * hc4 + 2 * hr4 + 2 * hk2 + 2 * hk4)
  have hE02 : 2 * ((A 2 0 + A 0 2) / r4) * (r4 / 4) +
      2 * ((A 1 0 - A 0 1) / r4) * ((A 2 1 + A 1 2) / r4) = A 0 2 := by
    linear_combination quatDivOff v r4 (A 1 0 - A 0 1) (A 2 1 + A 1 2)
      (A 2 0 + A 0 2) (A 0 2) 1 hvne hr4sq
      (by rw [hvA]
          linear_combination (2 : ℝ) * hc5 - 2 * hr5 - 2 * hk3 + 2 * hk7)
  have hE10 : 2 * ((A 2 0 + A 0 2) / r4) * ((A 2 1 + A 1 2) / r4) +
      2 * ((A 1 0 - A 0 1) / r4) * (r4 / 4) = A 1 0 := by
    linear_combination quatDivOff v r4 (A 2 0 + A 0 2) (A 2 1 + A 1 2)
      (A 1 0 - A 0 1) (A 1 0) 1 hvne hr4sq
      (by rw [hvA]
          linear_combination (2 : ℝ) * hc4 + 2 * hr4 + 2 * hk2 + 2 * hk4)
  have hE11 : (A 1 0 - A 0 1) / r4 * ((A 1 0 - A 0 1) / r4) -
      (A 2 0 + A 0 2) / r4 * ((A 2 0 + A 0 2) / r4) +
      (A 2 1 + A 1 2) / r4 * ((A 2 1 + A 1 2) / r4) -
      r4 / 4 * (r4 / 4) = A 1 1 := by
    linear_combination quatDivDiag v r4 (A 1 0 - A 0 1) (A 2 0 + A 0 2)
      (A 2 1 + A 1 2) (A 1 1) (-1) 1 (-1) 1 hvne hr4sq
      (by rw [hvA]
          linear_combination (-1 : ℝ) * hc1 + hc2 - hc3 + 2 * hr2 - 2 * hk1 +
            2 * hk5 + 2 * hk9)
  have hE12 : 2 * ((A 2 1 + A 1 2) / r4) * (r4 / 4) -
      2 * ((A 1 0 - A 0 1) / r4) * ((A 2 0 + A 0 2) / r4) = A 1 2 := by
    linear_combination quatDivOff v r4 (A 0 1 - A 1 0) (A 2 0 + A 0 2)
      (A 2 1 + A 1 2) (A 1 2) 1 hvne hr4sq
      (by rw [hvA]
          linear_combination (2 : ℝ) * hc6 - 2 * hr6 - 2 * hk6 + 2 * hk8)
  have hE20 : 2 * ((A 2 0 + A 0 2) / r4) * (r4 / 4) -
      2 * ((A 1 0 - A 0 1) / r4) * ((A 2 1 + A 1 2) / r4) = A 2 0 := by
    linear_combination quatDivOff v r4 (A 0 1 - A 1 0) (A 2 1 + A 1 2)
      (A 2 0 + A 0 2) (A 2 0) 1 hvne hr4sq
      (by rw [hvA]
          linear_combination (-2 : ℝ) * hc5 + 2 * hr5 + 2 * hk3 - 2 * hk7)
  have hE21 : 2 * ((A 2 1 + A 1 2) / r4) * (r4 / 4) +
      2 * ((A 1 0 - A 0 1) / r4) * ((A 2 0 + A 0 2) / r4) = A 2 1 := by
    linear_combination quatDivOff v r4 (A 1 0 - A 0 1) (A 2 0 + A 0 2)
      (A 2 1 + A 1 2) (A 2 1) 1 hvne hr4sq
      (by rw [hvA]
          linear_combination (-2 : ℝ) * hc6 + 2 * hr6 + 2 * hk6 - 2 * hk8)
  have hE22 : (A 1 0 - A 0 1) / r4 * ((A 1 0 - A 0 1) / r4) -
      (A 2 0 + A 0 2) / r4 * ((A 2 0 + A 0 2) / r4) -
      (A 2 1 + A 1 2) / r4 * ((A 2 1 + A 1 2) / r4) +
      r4 / 4 * (r4 / 4) = A 2 2 := by
    linear_combination quatDivDiag v r4 (A 1 0 - A 0 1) (A 2 0 + A 0 2)
      (A 2 1 + A 1 2) (A 2 2) 1 1 (-1) (-1) hvne hr4sq
      (by rw [hvA]
          linear_combination (-1 : ℝ) * hc1 - hc2 - 3 * hc3 + 2 * hr1 +
            2 * hr2 + 2 * hk1 + 2 * hk5 + 2 * hk9)
  simp only [MP_quaternionToMatrix3]
  rw [hnormalize, hq]
  funext i j
  fin_cases i <;> fin_cases j
  · exact hE00
  · exact hE01
  · exact hE02
  · exact hE10
  · exact hE11
  · exact hE12
  · exact hE20
  · exact hE21
  · exact hE22

/-- C7: for every 3×3 rotation matrix (orthonormal with determinant +1),
the round trip `MP_quaternionToMatrix(MP_matrixToQuaternion(R))` reproduces
`R` exactly over the reals, whichever derivation branch is selected; the
intermediate quaternion encodes the rotation only up to the sign ambiguity
`q ≡ -q`: negating all four components yields the same rotation matrix. -/
theorem quaternion_round_trip (A : Matrix (Fin 3) (Fin 3) ℝ)
    (horth : A.transpose * A = 1) (hdet : A.det = 1) :
    MP_quaternionToMatrix3 Real.sqrt (MP_matrixToQuaternion Real.sqrt A) = A ∧
    ∀ q : Quat ℝ, MP_quaternionToMatrix3 Real.sqrt ⟨-q.x, -q.y, -q.z, -q.w⟩ =
      MP_quaternionToMatrix3 Real.sqrt q := by
  constructor
  · have hrel := rotRelations_of A horth hdet
    have hsum : quatRR A + quatXX A + quatYY A + quatZZ A = 4 := by
      unfold quatRR quatXX quatYY quatZZ
      dsimp only
      ring
    obtain ⟨g1, g2, g3, g4⟩ :=
      maxAccum_ge (quatRR A) (quatXX A) (quatYY A) (quatZZ A)
    have hmx1 : 1 ≤ maxAccum (quatRR A) (quatXX A) (quatYY A) (quatZZ A) := by
      linarith
    simp only [MP_matrixToQuaternion]
    by_cases h1 : quatRR A = maxAccum (quatRR A) (quatXX A) (quatYY A) (quatZZ A)
    · rw [if_pos h1]
      exact roundTrip_rr A hrel (by rw [h1]; exact hmx1)
    · rw [if_neg h1]
      by_cases h2 : quatXX A = maxAccum (quatRR A) (quatXX A) (quatYY A) (quatZZ A)
      · rw [if_pos h2]
        exact roundTrip_xx A hrel (by rw [h2]; exact hmx1)
      · rw [if_neg h2]
        by_cases h3 : quatYY A = maxAccum (quatRR A) (quatXX A) (quatYY A) (quatZZ A)
        · rw [if_pos h3]
          exact roundTrip_yy A hrel (by rw [h3]; exact hmx1)
        · rw [if_neg h3]
          have h4 : quatZZ A =
              maxAccum (quatRR A) (quatXX A) (quatYY A) (quatZZ A) := by
            rcases maxAccum_cases (quatRR A) (quatXX A) (quatYY A) (quatZZ A)
              with h | h | h | h
            · exact absurd h.symm h1
            · exact absurd h.symm h2
            · exact absurd h.symm h3
            · exact h.symm
          exact roundTrip_zz A hrel (by rw [h4]; exact hmx1)
  · intro q
    have hn2 : quatNorm2 ⟨-q.x, -q.y, -q.z, -q.w⟩ = quatNorm2 q := by
      unfold quatNorm2
      dsimp only
      ring
    have hcomp : quatNormalize Real.sqrt ⟨-q.x, -q.y, -q.z, -q.w⟩ =
        ⟨-(quatNormalize Real.sqrt q).x, -(quatNormalize Real.sqrt q).y,
         -(quatNormalize Real.sqrt q).z, -(quatNormalize Real.sqrt q).w⟩ := by
      simp only [quatNormalize]
      rw [hn2]
      split_ifs with h
      · rfl
      · ext <;> exact neg_div _ _
    simp only [MP_quaternionToMatrix3]
    rw [hcomp]
    set nq : Quat ℝ := quatNormalize Real.sqrt q with hnq
    have h00 : -nq.w * -nq.w + -nq.x * -nq.x - -nq.y * -nq.y - -nq.z * -nq.z =
        nq.w * nq.w + nq.x * nq.x - nq.y * nq.y - nq.z * nq.z := by ring
    have h01 : 2 * -nq.x * -nq.y - 2 * -nq.w * -nq.z =
        2 * nq.x * nq.y - 2 * nq.w * nq.z := by ring
    have h02 : 2 * -nq.x * -nq.z + 2 * -nq.w * -nq.y =
        2 * nq.x * nq.z + 2 * nq.w * nq.y := by ring
    have h10 : 2 * -nq.x * -nq.y + 2 * -nq.w * -nq.z =
        2 * nq.x * nq.y + 2 * nq.w * nq.z := by ring
    have h11 : -nq.w * -nq.w - -nq.x * -nq.x + -nq.y * -nq.y - -nq.z * -nq.z =
        nq.w * nq.w - nq.x * nq.x + nq.y * nq.y - nq.z * nq.z := by ring
    have h12 : 2 * -nq.y * -nq.z - 2 * -nq.w * -nq.x =
        2 * nq.y * nq.z - 2 * nq.w * nq.x := by ring
    have h20 : 2 * -nq.x * -nq.z - 2 * -nq.w * -nq.y =
        2 * nq.x * nq.z - 2 * nq.w * nq.y := by ring
    have h21 : 2 * -nq.y * -nq.z + 2 * -nq.w * -nq.x =
        2 * nq.y * nq.z + 2 * nq.w * nq.x := by ring
    have h22 : -nq.w * -nq.w - -nq.x * -nq.x - -nq.y * -nq.y + -nq.z * -nq.z =
        nq.w * nq.w - nq.x * nq.x - nq.y * nq.y + nq.z * nq.z := by ring
    funext i j
    fin_cases i <;> fin_cases j
    · exact h00
    · exact h01
    · exact h02
    · exact h10
    · exact h11
    · exact h12
    · exact h20
    · exact h21
    · exact h22

/-- Witness for C7 at the identity rotation. -/
theorem quaternion_round_trip_witness :
    ((1 : Matrix (Fin 3) (Fin 3) ℝ).transpose * 1 = 1 ∧
      (1 : Matrix (Fin 3) (Fin 3) ℝ).det = 1) ∧
    (MP_quaternionToMatrix3 Real.sqrt
        (MP_matrixToQuaternion Real.sqrt (1 : Matrix (Fin 3) (Fin 3) ℝ)) = 1 ∧
      ∀ q : Quat ℝ,
        MP_quaternionToMatrix3 Real.sqrt ⟨-q.x, -q.y, -q.z, -q.w⟩ =
          MP_quaternionToMatrix3 Real.sqrt q) := by
  have h1 : (1 : Matrix (Fin 3) (Fin 3) ℝ).transpose * 1 = 1 := by
    rw [Matrix.transpose_one, Matrix.one_mul]
  have h2 : (1 : Matrix (Fin 3) (Fin 3) ℝ).det = 1 := Matrix.det_one
  exact ⟨⟨h1, h2⟩, quaternion_round_trip 1 h1 h2⟩
